/-
  Verification of the NABCA table-extraction pipeline.

  Shallow embedding of the core transformation functions of the repository
  (Textract block-graph → dense grids → merged table → header mapping →
  records → cleaned records → batched sink), translated from
  `test_nabca_extraction.py` (the pipeline copy used throughout) and
  `dagster_pipelines/components/base_extractor.py`.

  Conventions of the embedding:
  * Python machine integers are modelled as `Int`/`Nat` (no overflow is
    relevant anywhere in this code).
  * Python list indexing `l[i]` (which admits negative indices and raises
    `IndexError` out of range) is modelled by `pyIdx?`; fallible code paths
    return `Except String`.
  * Python string predicates (`str.strip`, `str.lower`, `str.isdigit`) are
    modelled with their ASCII semantics, which is what the documents this
    pipeline processes exercise.
  * Python floats appear in two places: the `0.5` coverage threshold
    (`len(record) >= n * 0.5`, exact in binary, modelled as `n ≤ 2·len`)
    and numeric cell parsing, where parsed decimal literals are modelled
    exactly as rationals.
-/
import Mathlib

namespace NabcaPipeline

/-! ## Character and string utilities (ASCII semantics of the Python ones) -/

/-- The apostrophe character (code point 39). -/
def apos : Char := Char.ofNat 39

/-- Python `str.strip()` on the character list: whitespace removed from both
ends. -/
def trimL (l : List Char) : List Char :=
  ((l.dropWhile Char.isWhitespace).reverse.dropWhile Char.isWhitespace).reverse

/-- Python `str.strip()`. -/
def trimS (s : String) : String := ⟨trimL s.data⟩

/-- Python `str.lower()` restricted to ASCII letters. -/
def lowerChar (c : Char) : Char :=
  if 'A' ≤ c ∧ c ≤ 'Z' then Char.ofNat (c.toNat + 32) else c

/-- Python `str.lower()` (ASCII). -/
def lowerS (s : String) : String := ⟨s.data.map lowerChar⟩

/-! ## Block graph data model

A Textract block as the code reads it: every field access in the source
goes through `.get` with a default (`RowSpan`/`ColumnSpan` default `0`,
`RowIndex`/`ColumnIndex` default `1`, `Text` default `''`), so the defaults
are baked into the record fields.  The `Relationships` key may be absent,
which the code distinguishes from an empty list, hence the `Option`. -/

structure Rel where
  relType : String
  ids : List String
deriving DecidableEq

structure Block where
  id : String
  blockType : String
  rowSpan : Int := 0
  colSpan : Int := 0
  rowIndex : Int := 1
  colIndex : Int := 1
  text : String := ""
  relationships : Option (List Rel) := none
deriving DecidableEq

/-- A reconstructed table: a matrix of cell strings. -/
abbrev Grid := List (List String)

/-- `next((b for b in blocks if b.get('Id') == cid), None)`. -/
def findBlock (blocks : List Block) (cid : String) : Option Block :=
  blocks.find? (fun b => b.id == cid)

/-- Resolve the CHILD-relationship ids of a block against the block list,
in order, silently skipping dangling ids (`parse_textract_tables`,
lines 43-48 and 61-66). -/
def childBlocks (blocks : List Block) (b : Block) : List Block :=
  (b.relationships.getD []).flatMap (fun rel =>
    if rel.relType == "CHILD" then
      rel.ids.filterMap (findBlock blocks)
    else [])

/-- The CELL children of a table block that resolve against the block list. -/
def resolvableCells (blocks : List Block) (tb : Block) : List Block :=
  (childBlocks blocks tb).filter (fun b => b.blockType == "CELL")

/-- Cell text: the WORD children's texts, each followed by one space,
concatenated and finally stripped (lines 72-81). -/
def cellText (blocks : List Block) (cell : Block) : String :=
  let words := (childBlocks blocks cell).filterMap (fun w =>
    if w.blockType == "WORD" then some w.text else none)
  trimS (words.foldl (fun acc t => acc ++ t ++ " ") "")

/-- Largest element of an integer list (Python `max`, callers guarantee
non-emptiness; `0` on the empty list). -/
def listMaxI : List Int → Int
  | [] => 0
  | x :: xs => xs.foldl max x

/-- Grid dimensions for one table block: the declared spans when both are
positive, otherwise inferred from the resolvable cells' largest indices;
`none` models the `continue` statements (no grid for this block),
lines 30-55.  Python `range(n)` of a non-positive bound is empty, hence
`Int.toNat`. -/
def computeDims (blocks : List Block) (tb : Block) : Option (Nat × Nat) :=
  if 0 < tb.rowSpan ∧ 0 < tb.colSpan then
    some (tb.rowSpan.toNat, tb.colSpan.toNat)
  else if tb.relationships.isNone then none
  else
    let cells := resolvableCells blocks tb
    if cells.isEmpty then none
    else some ((listMaxI (cells.map (·.rowIndex))).toNat,
               (listMaxI (cells.map (·.colIndex))).toNat)

/-- Python list index resolution: `0 ≤ i < n` maps to `i`; `-n ≤ i < 0`
wraps to `n + i`; anything else is an `IndexError`. -/
def pyIdx? (n : Nat) (i : Int) : Option Nat :=
  if 0 ≤ i then (if i < (n : Int) then some i.toNat else none)
  else (if 0 ≤ i + (n : Int) then some (i + n).toNat else none)

/-- `grid[r][c] = s` with Python semantics (line 81): the row is indexed
first, then the column; out-of-range indices raise. -/
def pySet2 (g : Grid) (r c : Int) (s : String) : Except String Grid :=
  match pyIdx? g.length r with
  | none => .error "IndexError"
  | some ri =>
    match pyIdx? (g.getD ri []).length c with
    | none => .error "IndexError"
    | some ci => .ok (g.set ri ((g.getD ri []).set ci s))

/-- The writes the fill loop performs for one table block: one
`(RowIndex-1, ColumnIndex-1, text)` triple per resolvable CELL child,
in child order (lines 61-81). -/
def cellWrites (blocks : List Block) (tb : Block) : List (Int × Int × String) :=
  (resolvableCells blocks tb).map
    (fun cell => (cell.rowIndex - 1, cell.colIndex - 1, cellText blocks cell))

/-- The fill loop (lines 61-81): perform the writes in order; the first
`IndexError` aborts. -/
def fillGrid (g : Grid) : List (Int × Int × String) → Except String Grid
  | [] => .ok g
  | x :: ws =>
    match pySet2 g x.1 x.2.1 x.2.2 with
    | .error e => .error e
    | .ok g1 => fillGrid g1 ws

/-- Reconstruct one table block's grid: `some grid` when a grid is
produced, `none` for the `continue` paths, `.error` when a write raises. -/
def processTable (blocks : List Block) (tb : Block) : Except String (Option Grid) :=
  match computeDims blocks tb with
  | none => .ok none
  | some (r, c) =>
    if tb.relationships.isNone then .ok none
    else
      match fillGrid (List.replicate r (List.replicate c "")) (cellWrites blocks tb) with
      | .error e => .error e
      | .ok g => .ok (some g)

/-- The outer loop over the TABLE blocks, accumulating the grids in
order; a raised `IndexError` aborts the whole call. -/
def parseTablesLoop (blocks : List Block) :
    List Block → List Grid → Except String (List Grid)
  | [], acc => .ok acc
  | tb :: tbs, acc =>
    match processTable blocks tb with
    | .error e => .error e
    | .ok none => parseTablesLoop blocks tbs acc
    | .ok (some g) => parseTablesLoop blocks tbs (acc ++ [g])

/-- `parse_textract_tables` (lines 20-85): every TABLE block, in order,
contributes at most one grid; an `IndexError` in any fill aborts the whole
call. -/
def parse_textract_tables (blocks : List Block) : Except String (List Grid) :=
  parseTablesLoop blocks (blocks.filter (fun b => b.blockType == "TABLE")) []

/-! ## String similarity (`difflib.SequenceMatcher(None, a, b).ratio()`)

The strings compared here are short (no autojunk) and no junk predicate is
supplied, so `ratio` is the documented Ratcliff–Obershelp computation:
repeatedly take the longest matching block — earliest start in `a`, then
earliest start in `b`, among the maximal ones — recurse on the pieces to
its left and right, and return `2·M / (|a| + |b|)` where `M` is the total
matched length (`1` when both strings are empty). -/

/-- Length of the longest common prefix. -/
def cpl : List Char → List Char → Nat
  | a :: as, b :: bs => if a = b then cpl as bs + 1 else 0
  | _, _ => 0

/-- All index pairs `(i, j)`, `i < la`, `j < lb`, in lexicographic order. -/
def pairList (la lb : Nat) : List (Nat × Nat) :=
  (List.range la).flatMap (fun i => (List.range lb).map (fun j => (i, j)))

/-- Size of the longest matching block of `a` and `b`. -/
def maxMatchLen (a b : List Char) : Nat :=
  (pairList a.length b.length).foldl
    (fun m p => max m (cpl (a.drop p.1) (b.drop p.2))) 0

/-- Start `(i, j)` of the longest matching block: the lexicographically
first pair attaining `maxMatchLen`. -/
def bestPair (a b : List Char) : Nat × Nat :=
  ((pairList a.length b.length).find?
    (fun p => cpl (a.drop p.1) (b.drop p.2) == maxMatchLen a b)).getD (0, 0)

/-- Total matched size over the recursive block decomposition.  The fuel is
an upper bound on the recursion depth; every recursive call strictly
shrinks the first list, so `a.length + 1` suffices. -/
def matchTotalF : Nat → List Char → List Char → Nat
  | 0, _, _ => 0
  | fuel + 1, a, b =>
    let k := maxMatchLen a b
    if k = 0 then 0
    else
      let p := bestPair a b
      k + matchTotalF fuel (a.take p.1) (b.take p.2)
        + matchTotalF fuel (a.drop (p.1 + k)) (b.drop (p.2 + k))

/-- Total matched size `M` of the two lists. -/
def matchTotal (a b : List Char) : Nat := matchTotalF (a.length + 1) a b

/-- `similarity(a, b)` (lines 88-90): the `SequenceMatcher` ratio, as an
exact rational. -/
def similarity (a b : String) : ℚ :=
  let la := a.data.length
  let lb := b.data.length
  if la + lb = 0 then 1 else (2 * matchTotal a.data b.data : ℚ) / (la + lb)

/-! ## Table merger and header-row detection -/

/-- Merge-time count of non-empty cells of a row:
`sum(1 for cell in row if cell and cell.strip())`, line 121. -/
def mergeRowCount (row : List String) : Nat :=
  row.countP (fun s => trimS s != "")

/-- Header-detection count of a row, which additionally ignores a lone
apostrophe cell (line 147). -/
def headerRowCount (row : List String) : Nat :=
  row.countP (fun s => trimS s != "" && trimL s.data != [apos])

/-- The strict-improvement argmax fold shared by both detections
(lines 118-124 and 143-151): start from index 0 / count 0, move only on a
strictly larger count.  Returns `(index, count)`. -/
def argmaxStrict (counts : List Nat) : Nat × Nat :=
  counts.enum.foldl (fun acc p => if p.2 > acc.2 then p else acc) (0, 0)

/-- Header index a continuation grid's first five rows get scanned for
(lines 118-124). -/
def mergeHeaderIdx (g : Grid) : Nat :=
  (argmaxStrict ((g.take 5).map mergeRowCount)).1

/-- Header-row index of the merged table (lines 143-151). -/
def headerRowIdx (g : Grid) : Nat :=
  (argmaxStrict ((g.take 5).map headerRowCount)).1

/-- Merge all grids (lines 107-131): the first grid in full; each later
grid from the row after its detected header index on. -/
def mergeTables (tables : List Grid) : Grid :=
  tables.enum.foldl (fun acc p =>
    if p.1 == 0 then acc ++ p.2
    else acc ++ p.2.drop (mergeHeaderIdx p.2 + 1)) []

/-! ## Header resolver -/

structure SemanticField where
  name : String
  displayName : String
deriving DecidableEq

/-- `all(not h or not h.strip() for h in headers)`, line 166. -/
def headersEmpty (headers : List String) : Bool :=
  headers.all (fun h => trimS h == "")

/-- `len(headers) != len(set(h.strip().lower() for h in headers if h and
h.strip()))`, line 167.  The set size is the number of distinct elements. -/
def hasDuplicates (headers : List String) : Bool :=
  headers.length !=
    ((headers.filterMap (fun h =>
        if trimS h == "" then none else some (lowerS (trimS h)))).dedup).length

/-- The condition under which the resolver abandons fuzzy matching,
line 169. -/
def usesFallback (headers : List String) : Bool :=
  headersEmpty headers || hasDuplicates headers

/-- Positional mapping `column[i] → field[i]` (lines 176-178). -/
def positionalMap (fields : List SemanticField) : List (Nat × String) :=
  fields.enum.map (fun p => (p.1, p.2.name))

/-- Score of one header against one field: the larger of the ratios against
`name` and `displayName`, both sides lowercased (lines 191-193). -/
def fieldScore (h : String) (f : SemanticField) : ℚ :=
  max (similarity (lowerS h) (lowerS f.name))
      (similarity (lowerS h) (lowerS f.displayName))

/-- The running best of the fuzzy loop (lines 187-197): `best_match` /
`best_score` start at `None` / `0.0` and move on a strictly larger score. -/
def bestField (h : String) (fields : List SemanticField) : Option (String × ℚ) :=
  fields.foldl (fun best f =>
    let sc := fieldScore h f
    match best with
    | none => if 0 < sc then some (f.name, sc) else none
    | some (_, bs) => if bs < sc then some (f.name, sc) else best) none

/-- Fuzzy branch of the resolver (lines 182-203): skip blank headers; a
column maps to the best field only when `best_match` is a non-empty name
and the best score strictly exceeds `0.5`. -/
def fuzzyMap (headers : List String) (fields : List SemanticField) :
    List (Nat × String) :=
  headers.enum.foldl (fun m p =>
    if trimS p.2 == "" then m
    else match bestField p.2 fields with
      | some (nm, sc) =>
          if nm ≠ "" ∧ 1/2 < sc then m ++ [(p.1, nm)] else m
      | none => m) []

/-- The full column-mapping construction (lines 162-203). -/
def buildMapping (headers : List String) (fields : List SemanticField) :
    List (Nat × String) :=
  if usesFallback headers then
    (if fields.length == headers.length then positionalMap fields else [])
  else fuzzyMap headers fields

/-- Python dict lookup `column_mapping[c]` on the association list (keys
are inserted at most once by both constructions). -/
def mapLookup (m : List (Nat × String)) (c : Nat) : Option String :=
  (m.find? (fun q => q.1 == c)).map (·.2)

/-! ## Record assembler -/

/-- A raw record: a Python dict from field name to cell string, modelled
as an association list with distinct keys in insertion order. -/
abbrev RawRecord := List (String × String)

/-- Python dict assignment `d[k] = v`: overwrite in place when the key
exists, else append. -/
def dictInsert (d : List (String × α)) (k : String) (v : α) : List (String × α) :=
  if d.any (fun p => p.1 == k) then
    d.map (fun p => if p.1 == k then (k, v) else p)
  else d ++ [(k, v)]

/-- Build one row's record (lines 210-214): every in-range column that the
mapping covers contributes its stripped value. -/
def buildRecord (mapping : List (Nat × String)) (row : List String) : RawRecord :=
  row.enum.foldl (fun d p =>
    match mapLookup mapping p.1 with
    | some name => dictInsert d name (trimS p.2)
    | none => d) []

/-- Assemble and filter the records (lines 208-223).  The acceptance test
`len(record) >= len(semantic_fields) * 0.5` is exact float arithmetic and
is modelled by the equivalent `nf ≤ 2 * len(record)`. -/
def assembleRecords (mapping : List (Nat × String)) (nf : Nat)
    (rows : List (List String)) : List RawRecord :=
  rows.foldl (fun recs row =>
    let d := buildRecord mapping row
    if nf ≤ 2 * d.length then recs ++ [d] else recs) []

/-- `extract_nabca_table_data` (lines 93-225): merge the grids, bail out on
fewer than two merged rows, detect the header row, build the column
mapping, assemble the records. -/
def extract_nabca_table_data (tables : List Grid)
    (fields : List SemanticField) : List RawRecord :=
  if tables.isEmpty then []
  else
    let td := mergeTables tables
    if td.length < 2 then []
    else
      let hIdx := headerRowIdx td
      let headers := td.getD hIdx []
      let dataRows := td.drop (hIdx + 1)
      let mapping := buildMapping headers fields
      assembleRecords mapping fields.length dataRows

/-! ## Record cleaner (`clean_record`, lines 228-254) -/

/-- A record value after cleaning: the original string, a parsed integer,
a parsed floating-point number (decimal literals modelled exactly), or
null. -/
inductive Value where
  | str (s : String)
  | int (n : Int)
  | float (q : ℚ)
  | null
deriving DecidableEq

/-- The normalisation of line 241:
`v.lstrip("'").replace('%', '').replace(',', '').replace(' ', '').strip()` —
all leading apostrophes dropped, every percent sign, comma and space
removed, then stripped. -/
def normalizeL (l : List Char) : List Char :=
  trimL ((l.dropWhile (· = apos)).filter
    (fun c => c ≠ '%' && c ≠ ',' && c ≠ ' '))

/-- Python `str.replace(c, '', 1)`: remove the first occurrence of `c`. -/
def removeFirst (c : Char) : List Char → List Char
  | [] => []
  | x :: xs => if x = c then xs else x :: removeFirst c xs

/-- The numeric sniff of line 244:
`v_clean.replace('.', '', 1).replace('-', '', 1).replace('+', '', 1).isdigit()`
(`isdigit` of the empty string is false). -/
def sloppyNumeric (l : List Char) : Bool :=
  let r := removeFirst '+' (removeFirst '-' (removeFirst '.' l))
  !r.isEmpty && r.all Char.isDigit

/-- Numeric value of a digit list. -/
def digitsVal (l : List Char) : Nat :=
  l.foldl (fun a c => 10 * a + (c.toNat - 48)) 0

/-- Unsigned part of Python `int(s)`: one or more digits, else a raised
`ValueError` (`none`). -/
def pyIntCore (body : List Char) : Option Int :=
  if !body.isEmpty && body.all Char.isDigit then
    some ((digitsVal body : Nat) : Int)
  else none

/-- Python `int(s)` on the strings this code can reach after the numeric
sniff (an optional single leading sign followed by one or more digits;
everything else raises, i.e. `none`). -/
def pyInt (l : List Char) : Option Int :=
  match l with
  | [] => none
  | c :: rest =>
    if c = '+' then pyIntCore rest
    else if c = '-' then (pyIntCore rest).map (fun n => -n)
    else pyIntCore l

/-- Unsigned part of Python `float(s)` on the strings this code can reach
after the numeric sniff: digits with at most one decimal point and at
least one digit (exponents, `inf`, `nan` and underscores cannot survive
the sniff). -/
def pyFloatCore (body : List Char) : Option ℚ :=
  if body.contains '.' then
    let d1 := body.takeWhile (· ≠ '.')
    let d2 := (body.dropWhile (· ≠ '.')).tail
    if d1.all Char.isDigit && d2.all Char.isDigit && !d2.contains '.' &&
        !(d1.isEmpty && d2.isEmpty) then
      some ((digitsVal d1 : ℚ) + (digitsVal d2 : ℚ) / (10 : ℚ) ^ d2.length)
    else none
  else if !body.isEmpty && body.all Char.isDigit then
    some ((digitsVal body : ℚ))
  else none

/-- Python `float(s)` with an optional single leading sign. -/
def pyFloat (l : List Char) : Option ℚ :=
  match l with
  | [] => none
  | c :: rest =>
    if c = '+' then pyFloatCore rest
    else if c = '-' then (pyFloatCore rest).map (fun q => -q)
    else pyFloatCore l

/-- The parse attempt of line 246: `float(v_clean) if '.' in v_clean else
int(v_clean)`. -/
def pyParseNum (l : List Char) : Option Value :=
  if l.contains '.' then (pyFloat l).map Value.float
  else (pyInt l).map Value.int

/-- Clean one value (lines 236-252): empty string or null becomes null;
a string is normalised and, when the sniff passes and the parse succeeds,
replaced by the parsed number, otherwise kept as the original string;
non-string values pass through. -/
def cleanValue (v : Value) : Value :=
  match v with
  | .null => .null
  | .str s =>
    if s = "" then .null
    else
      let vc := normalizeL s.data
      if !vc.isEmpty && sloppyNumeric vc then
        match pyParseNum vc with
        | some x => x
        | none => .str s
      else .str s
  | x => x

/-- `clean_record` (lines 228-254): keys starting with an underscore are
dropped, every other value is cleaned. -/
def clean_record (rec : List (String × Value)) : List (String × Value) :=
  (rec.filter (fun p => !p.1.startsWith "_")).map
    (fun p => (p.1, cleanValue p.2))

/-! ## Sink loaders -/

/-- Successive chunks of size `n` (Python
`records[i:i+batch_size] for i in range(0, len(records), batch_size)`).
Structural recursion on a fuel that suffices for every positive `n`. -/
def chunksOfAux (fuel n : Nat) (l : List α) : List (List α) :=
  match fuel, l with
  | 0, _ => []
  | _, [] => []
  | fuel + 1, l => l.take n :: chunksOfAux fuel n (l.drop n)

/-- The batches of a record list at chunk size `n`. -/
def chunksOf (n : Nat) (l : List α) : List (List α) :=
  chunksOfAux l.length n l

/-- `BaseExtractor.load_data` (base_extractor.py, lines 142-172),
parameterised over the sink: 1000-record batches; a batch that inserts
adds its full size to the total; a rejected batch is logged and skipped,
and the loop continues. -/
def load_data (ins : List ρ → Bool) (records : List ρ) : Nat :=
  (chunksOf 1000 records).foldl
    (fun total batch => if ins batch then total + batch.length else total) 0

/-- The debug script's insert path (`main`, lines 377-397): one whole-list
insert; on rejection, every record is retried individually and the
individually failing ones are counted as failed.  Returns
`(loaded, failed)`. -/
def mainLoad (batchIns : List ρ → Bool) (recIns : ρ → Bool)
    (records : List ρ) : Nat × Nat :=
  if batchIns records then (records.length, 0)
  else records.foldl
    (fun lf r => if recIns r then (lf.1 + 1, lf.2) else (lf.1, lf.2 + 1)) (0, 0)

/-- Modelled from the spec (§7 sink failure): the loaded count the claim
describes — chunks of 1000, a rejected batch retried record by record with
only the individually failing records lost. -/
def specClaimLoad (batchIns : List ρ → Bool) (recIns : ρ → Bool)
    (records : List ρ) : Nat :=
  ((chunksOf 1000 records).map
    (fun b => if batchIns b then b.length else b.countP recIns)).sum

/-! ## Auxiliary predicates used by the theorems -/

/-- Every resolvable cell of `tb` addresses a position inside the grid
dimensions the code computes for it (taking Python's negative-index
wrap-around into account). -/
def tableInBounds (blocks : List Block) (tb : Block) : Bool :=
  match computeDims blocks tb with
  | none => true
  | some (r, c) =>
    (cellWrites blocks tb).all
      (fun x => (pyIdx? r x.1).isSome && (pyIdx? c x.2.1).isSome)

/-- Every TABLE block of the list satisfies `tableInBounds`. -/
def wellIndexed (blocks : List Block) : Bool :=
  (blocks.filter (fun b => b.blockType == "TABLE")).all (tableInBounds blocks)

/-- The numeric pattern exactly as the specification words it: an optional
single leading sign, then digits with at most one decimal point and at
least one digit. -/
def specNumPat (l : List Char) : Bool :=
  let body : List Char :=
    match l with
    | c :: rest => if c = '+' ∨ c = '-' then rest else l
    | [] => []
  body.all (fun ch => ch.isDigit || ch = '.') &&
    body.count '.' ≤ 1 && body.any Char.isDigit

/-- The value cleaner exactly as the claim words it, with a *single*
leading apostrophe stripped (`specNumPat` for the pattern, the shared
parsers for the value); used to compare the claim against the code's
`lstrip`, which strips every leading apostrophe. -/
def claimSingleStripClean (s : String) : Value :=
  if s = "" then Value.null
  else
    let n := trimL (((match s.data with
      | c :: rest => if c = apos then rest else s.data
      | [] => [])).filter (fun c => c ≠ '%' && c ≠ ',' && c ≠ ' '))
    if specNumPat n then
      (if n.contains '.' then Value.float ((pyFloat n).getD 0)
       else Value.int ((pyInt n).getD 0))
    else Value.str s

/-- What the fuzzy loop contributes for one column with header `h`:
the accepted field name, or nothing. -/
def colResult (h : String) (fields : List SemanticField) : Option String :=
  if trimS h == "" then none
  else match bestField h fields with
    | some (nm, sc) => if nm ≠ "" ∧ 1/2 < sc then some nm else none
    | none => none

/-- The largest fuzzy score any field reaches against a header. -/
def maxScore (h : String) (fields : List SemanticField) : ℚ :=
  (fields.map (fieldScore h)).foldr max 0

/-- The name of the first field attaining the largest fuzzy score. -/
def firstMatchName (h : String) (fields : List SemanticField) : String :=
  ((fields.find? (fun f => fieldScore h f = maxScore h fields)).map
    (·.name)).getD ""

/-! ## Helper lemmas on the loaders -/

lemma chunksOfAux_join {α : Type} : ∀ (fuel n : Nat) (l : List α),
    0 < n → l.length ≤ fuel → (chunksOfAux fuel n l).flatten = l := by
  intro fuel
  induction fuel with
  | zero =>
    intro n l _ hl
    cases l with
    | nil => simp [chunksOfAux]
    | cons x xs => simp at hl
  | succ f ih =>
    intro n l hn hl
    cases l with
    | nil => simp [chunksOfAux]
    | cons x xs =>
      simp only [chunksOfAux, List.flatten_cons]
      rw [ih n _ hn]
      · exact List.take_append_drop n (x :: xs)
      · simp only [List.length_drop, List.length_cons] at *
        omega

lemma chunksOfAux_mem {α : Type} : ∀ (fuel n : Nat) (l : List α) (b : List α),
    0 < n → b ∈ chunksOfAux fuel n l → b.length ≤ n ∧ b ≠ [] := by
  intro fuel
  induction fuel with
  | zero =>
    intro n l b _ hb
    cases l <;> simp [chunksOfAux] at hb
  | succ f ih =>
    intro n l b hn hb
    cases l with
    | nil => simp [chunksOfAux] at hb
    | cons x xs =>
      simp only [chunksOfAux, List.mem_cons] at hb
      rcases hb with hb | hb
      · subst hb
        constructor
        · simp
        · cases n with
          | zero => omega
          | succ m => simp [List.take]
      · exact ih n _ b hn hb

lemma chunksOf_join {α : Type} (n : Nat) (l : List α) (hn : 0 < n) :
    (chunksOf n l).flatten = l :=
  chunksOfAux_join l.length n l hn le_rfl

lemma chunksOf_mem {α : Type} (n : Nat) (l : List α) (b : List α) (hn : 0 < n)
    (hb : b ∈ chunksOf n l) : b.length ≤ n ∧ b ≠ [] :=
  chunksOfAux_mem l.length n l b hn hb

lemma foldl_if_sum {ρ : Type} (ins : List ρ → Bool) :
    ∀ (l : List (List ρ)) (init : Nat),
    l.foldl (fun total batch => if ins batch then total + batch.length else total) init
      = init + (l.map (fun b => if ins b then b.length else 0)).sum := by
  intro l
  induction l with
  | nil => simp
  | cons b t ih =>
    intro init
    simp only [List.foldl_cons, List.map_cons, List.sum_cons]
    rw [ih]
    by_cases h : ins b <;> simp [h] <;> omega

lemma mainLoad_foldl {ρ : Type} (recIns : ρ → Bool) :
    ∀ (l : List ρ) (a b : Nat),
    l.foldl (fun lf r => if recIns r then (lf.1 + 1, lf.2) else (lf.1, lf.2 + 1)) (a, b)
      = (a + l.countP recIns, b + (l.length - l.countP recIns)) := by
  intro l
  induction l with
  | nil => simp
  | cons x t ih =>
    intro a b
    have hc := List.countP_le_length (l := t) (p := recIns)
    by_cases h : recIns x <;>
      simp only [List.foldl_cons, h, if_true, if_false, ih, List.countP_cons,
        List.length_cons] <;> simp [h] <;> omega

/-! ## C9: sink batching -/

/-- C9 counterexample: `BaseExtractor.load_data` performs no per-record
retry — a single rejected one-record batch is simply lost, while the claim
predicts the record is retried individually and loaded. -/
theorem load_data_no_retry_counterexample :
    load_data (fun _ => false) [(0 : Nat)] = 0 ∧
    specClaimLoad (fun _ => false) (fun _ => true) [(0 : Nat)] = 1 ∧
    load_data (fun _ => false) [(0 : Nat)] ≠
      specClaimLoad (fun _ => false) (fun _ => true) [(0 : Nat)] :=
  ⟨rfl, rfl, by decide⟩

/-- C9 amended: the chunked loader (batches of 1000) adds a batch's full
size on success and skips the batch entirely on rejection — its records
are lost without a per-record retry — and a rejected batch never aborts
the remaining batches (each batch contributes independently to the sum);
the chunks partition the records in order and are non-empty with at most
1000 records each.  The per-record retry after a wholesale rejection
exists only in the unchunked script path `mainLoad`, where exactly the
individually failing records are counted as lost. -/
theorem load_data_chunking_spec {ρ : Type} (ins : List ρ → Bool)
    (records : List ρ) :
    load_data ins records
      = ((chunksOf 1000 records).map (fun b => if ins b then b.length else 0)).sum ∧
    (chunksOf 1000 records).flatten = records ∧
    (∀ b ∈ chunksOf 1000 records, b.length ≤ 1000 ∧ b ≠ []) ∧
    ∀ (batchIns : List ρ → Bool) (recIns : ρ → Bool),
      mainLoad batchIns recIns records =
        (if batchIns records then (records.length, 0)
         else (records.countP recIns, records.length - records.countP recIns)) := by
  refine ⟨?_, chunksOf_join 1000 records (by omega), ?_, ?_⟩
  · simpa using foldl_if_sum ins (chunksOf 1000 records) 0
  · intro b hb
    exact chunksOf_mem 1000 records b (by omega) hb
  · intro batchIns recIns
    unfold mainLoad
    by_cases h : batchIns records
    · simp [h]
    · rw [if_neg h, if_neg h, mainLoad_foldl recIns records 0 0]
      simp

/-- C9 witness: the amended statement applied at a concrete rejected
batch. -/
theorem load_data_chunking_spec_witness :
    load_data (fun _ => false) [(3 : Nat), 4] = 0 ∧
    (chunksOf 1000 [(3 : Nat), 4]).flatten = [3, 4] ∧
    mainLoad (fun _ => false) (fun r => r == 3) [(3 : Nat), 4] = (1, 1) := by
  refine ⟨(load_data_chunking_spec _ _).1.trans (by decide),
    (load_data_chunking_spec (fun _ => false) [(3 : Nat), 4]).2.1, ?_⟩
  have h := (load_data_chunking_spec (fun _ => false) [(3 : Nat), 4]).2.2.2
    (fun _ => false) (fun r => r == 3)
  simpa using h

/-! ## C10: short merged tables produce no records -/

/-- C10: whenever the merged table has fewer than two rows, extraction
returns the empty record list (no header detection or mapping output can
be observed). -/
theorem short_table_no_records (tables : List Grid)
    (fields : List SemanticField) (h : (mergeTables tables).length < 2) :
    extract_nabca_table_data tables fields = [] := by
  unfold extract_nabca_table_data
  by_cases he : tables.isEmpty <;> simp [he, h]

/-- C10 witness: a single one-row grid (header only) yields no records. -/
theorem short_table_no_records_witness :
    (mergeTables [[["h", "x"]]]).length < 2 ∧
    extract_nabca_table_data [[["h", "x"]]] [⟨"brand", "brand"⟩] = [] :=
  ⟨by decide, short_table_no_records _ _ (by decide)⟩

/-! ## Helper lemmas on records -/

lemma dictInsert_keys_mem {α : Type} (d : List (String × α)) (k : String)
    (v : α) (x : String) :
    x ∈ (dictInsert d k v).map Prod.fst ↔ x ∈ d.map Prod.fst ∨ x = k := by
  unfold dictInsert
  by_cases h : d.any (fun p => p.1 == k)
  · have hk : k ∈ d.map Prod.fst := by
      rcases List.any_eq_true.mp h with ⟨p, hp, hpk⟩
      exact List.mem_map.mpr ⟨p, hp, (beq_iff_eq.mp hpk)⟩
    have hkeys : (d.map (fun p => if p.1 == k then (k, v) else p)).map Prod.fst
        = d.map Prod.fst := by
      rw [List.map_map]
      apply List.map_congr_left
      intro p _
      by_cases hpk : p.1 = k
      · simp [hpk]
      · simp [hpk]
    rw [if_pos h, hkeys]
    constructor
    · exact Or.inl
    · rintro (hx | rfl)
      · exact hx
      · exact hk
  · rw [if_neg h]
    simp

lemma buildRecord_keys_aux (mapping : List (Nat × String)) :
    ∀ (row : List String) (n : Nat) (init : RawRecord) (x : String),
    (x ∈ ((row.enumFrom n).foldl (fun d p =>
        match mapLookup mapping p.1 with
        | some name => dictInsert d name (trimS p.2)
        | none => d) init).map Prod.fst)
    ↔ x ∈ init.map Prod.fst ∨
        ∃ c, c < row.length ∧ mapLookup mapping (n + c) = some x := by
  intro row
  induction row with
  | nil => simp [List.enumFrom]
  | cons v rest ih =>
    intro n init x
    have hstep : (v :: rest).enumFrom n = (n, v) :: rest.enumFrom (n + 1) := rfl
    rw [hstep, List.foldl_cons]
    cases hm : mapLookup mapping n with
    | some name =>
      simp only [hm]
      rw [ih (n + 1), dictInsert_keys_mem]
      constructor
      · rintro ((hx | rfl) | ⟨c, hc, hcx⟩)
        · exact Or.inl hx
        · exact Or.inr ⟨0, by simp, by simpa using hm⟩
        · exact Or.inr ⟨c + 1, by simp only [List.length_cons]; omega, by
            have : n + (c + 1) = n + 1 + c := by omega
            rw [this]; exact hcx⟩
      · rintro (hx | ⟨c, hc, hcx⟩)
        · exact Or.inl (Or.inl hx)
        · cases c with
          | zero =>
            refine Or.inl (Or.inr ?_)
            rw [Nat.add_zero] at hcx
            rw [hm] at hcx
            exact (Option.some_inj.mp hcx).symm
          | succ c' =>
            refine Or.inr ⟨c', by simp only [List.length_cons] at hc; omega, ?_⟩
            have : n + (c' + 1) = n + 1 + c' := by omega
            rw [this] at hcx
            exact hcx
    | none =>
      simp only [hm]
      rw [ih (n + 1)]
      constructor
      · rintro (hx | ⟨c, hc, hcx⟩)
        · exact Or.inl hx
        · exact Or.inr ⟨c + 1, by simp only [List.length_cons]; omega, by
            have : n + (c + 1) = n + 1 + c := by omega
            rw [this]; exact hcx⟩
      · rintro (hx | ⟨c, hc, hcx⟩)
        · exact Or.inl hx
        · cases c with
          | zero =>
            rw [Nat.add_zero, hm] at hcx
            exact absurd hcx (by simp)
          | succ c' =>
            refine Or.inr ⟨c', by simp only [List.length_cons] at hc; omega, ?_⟩
            have : n + (c' + 1) = n + 1 + c' := by omega
            rw [this] at hcx
            exact hcx

lemma assembleRecords_foldl (mapping : List (Nat × String)) (nf : Nat) :
    ∀ (rows : List (List String)) (init : List RawRecord),
    rows.foldl (fun recs row =>
        let d := buildRecord mapping row
        if nf ≤ 2 * d.length then recs ++ [d] else recs) init
      = init ++ (rows.map (buildRecord mapping)).filter
          (fun d => decide (nf ≤ 2 * d.length)) := by
  intro rows
  induction rows with
  | nil => simp
  | cons row rest ih =>
    intro init
    simp only [List.foldl_cons, List.map_cons, List.filter_cons]
    by_cases h : nf ≤ 2 * (buildRecord mapping row).length
    · simp [h, ih]
    · simp [h, ih]

/-! ## C5: record assembly and the coverage threshold -/

/-- C5: records are assembled row by row and a row is kept exactly when
its key count passes the code's `len(record) >= n * 0.5` test, which is
the claim's `⌈0.5·n⌉ = (n+1)/2` threshold; the keys of a row's record are
exactly the field names its mapped in-range columns point to; assembly is
a total function (a dropped row never aborts the run). -/
theorem record_assembly_coverage (mapping : List (Nat × String))
    (fields : List SemanticField) (rows : List (List String)) :
    assembleRecords mapping fields.length rows
      = (rows.map (buildRecord mapping)).filter
          (fun d => decide (fields.length ≤ 2 * d.length)) ∧
    (∀ d : RawRecord,
      (fields.length ≤ 2 * d.length ↔ (fields.length + 1) / 2 ≤ d.length)) ∧
    (∀ (row : List String) (x : String),
      x ∈ (buildRecord mapping row).map Prod.fst ↔
        ∃ c, c < row.length ∧ mapLookup mapping c = some x) := by
  refine ⟨?_, ?_, ?_⟩
  · simpa using assembleRecords_foldl mapping fields.length rows []
  · intro d
    omega
  · intro row x
    have h := buildRecord_keys_aux mapping row 0 [] x
    simpa [buildRecord, List.enum] using h

/-- C5 witness: with 9 semantic fields, a row carrying 3 mapped values is
dropped and a row carrying 5 mapped values is kept. -/
theorem record_assembly_coverage_witness :
    assembleRecords [(0, "a"), (1, "b"), (2, "c")]
        (List.replicate 9 (⟨"f", "f"⟩ : SemanticField)).length
        [["1", "2", "3", "", ""]] = [] ∧
    assembleRecords [(0, "a"), (1, "b"), (2, "c"), (3, "d"), (4, "e")]
        (List.replicate 9 (⟨"f", "f"⟩ : SemanticField)).length
        [["1", "2", "3", "4", "5"]]
      = [buildRecord [(0, "a"), (1, "b"), (2, "c"), (3, "d"), (4, "e")]
          ["1", "2", "3", "4", "5"]] :=
  ⟨(record_assembly_coverage [(0, "a"), (1, "b"), (2, "c")]
      (List.replicate 9 ⟨"f", "f"⟩) [["1", "2", "3", "", ""]]).1.trans
      (by decide),
   (record_assembly_coverage [(0, "a"), (1, "b"), (2, "c"), (3, "d"), (4, "e")]
      (List.replicate 9 ⟨"f", "f"⟩) [["1", "2", "3", "4", "5"]]).1.trans
      (by decide)⟩


/-! ## Helper lemmas on the grid fill -/

lemma pyIdx?_lt {n : Nat} {i : Int} {m : Nat} (h : pyIdx? n i = some m) :
    m < n := by
  unfold pyIdx? at h
  by_cases h0 : 0 ≤ i
  · rw [if_pos h0] at h
    by_cases h1 : i < (n : Int)
    · rw [if_pos h1] at h
      have := Option.some_inj.mp h
      omega
    · rw [if_neg h1] at h
      exact absurd h (by simp)
  · rw [if_neg h0] at h
    by_cases h1 : 0 ≤ i + (n : Int)
    · rw [if_pos h1] at h
      have := Option.some_inj.mp h
      omega
    · rw [if_neg h1] at h
      exact absurd h (by simp)

lemma getD_mem_of_lt (g : Grid) (n : Nat) (h : n < g.length) :
    g.getD n [] ∈ g := by
  rw [List.getD_eq_getElem g [] h]
  exact List.getElem_mem h

lemma pySet2_ok_shape {g g' : Grid} {r c : Int} {s : String} {w : Nat}
    (hrows : ∀ row ∈ g, row.length = w)
    (h : pySet2 g r c s = .ok g') :
    g'.length = g.length ∧ (∀ row ∈ g', row.length = w) := by
  unfold pySet2 at h
  split at h
  · exact absurd h (by simp)
  · rename_i ri hr
    split at h
    · exact absurd h (by simp)
    · rename_i ci hc
      injection h with h
      subst h
      refine ⟨List.length_set _ _ _, ?_⟩
      intro row hrow
      rcases List.mem_or_eq_of_mem_set hrow with hmem | rfl
      · exact hrows row hmem
      · rw [List.length_set]
        exact hrows _ (getD_mem_of_lt g ri (pyIdx?_lt hr))

lemma pySet2_ok_unchanged {g g' : Grid} {r c : Int} {s : String} {w : Nat}
    {i j : Nat}
    (hrows : ∀ row ∈ g, row.length = w)
    (h : pySet2 g r c s = .ok g')
    (hnot : ¬(pyIdx? g.length r = some i ∧ pyIdx? w c = some j)) :
    (g'.getD i []).getD j "" = (g.getD i []).getD j "" := by
  unfold pySet2 at h
  split at h
  · exact absurd h (by simp)
  · rename_i ri hr
    have hri : ri < g.length := pyIdx?_lt hr
    have hwr : (g.getD ri []).length = w := hrows _ (getD_mem_of_lt g ri hri)
    split at h
    · exact absurd h (by simp)
    · rename_i ci hc
      injection h with h
      subst h
      rw [hwr] at hc
      by_cases hi : ri = i
      · subst hi
        have hj : ci ≠ j := by
          intro hj
          exact hnot ⟨hr, hj ▸ hc⟩
        have hgi : (g.set ri ((g.getD ri []).set ci s)).getD ri []
            = (g.getD ri []).set ci s := by
          simp only [List.getD, List.get?_eq_getElem?]
          rw [List.getElem?_set_eq_of_lt _ (by simpa using hri)]
          rfl
        rw [hgi]
        simp only [List.getD, List.get?_eq_getElem?]
        rw [List.getElem?_set_ne hj]
      · have hgi : (g.set ri ((g.getD ri []).set ci s)).getD i []
            = g.getD i [] := by
          simp only [List.getD, List.get?_eq_getElem?]
          rw [List.getElem?_set_ne hi]
        rw [hgi]

lemma fillGrid_shape_unchanged :
    ∀ (ws : List (Int × Int × String)) (g g' : Grid) (w : Nat),
    (∀ row ∈ g, row.length = w) →
    fillGrid g ws = .ok g' →
    g'.length = g.length ∧ (∀ row ∈ g', row.length = w) ∧
    (∀ i j : Nat,
      (∀ x ∈ ws, ¬(pyIdx? g.length x.1 = some i ∧ pyIdx? w x.2.1 = some j)) →
      (g'.getD i []).getD j "" = (g.getD i []).getD j "") := by
  intro ws
  induction ws with
  | nil =>
    intro g g' w hrows h
    injection h with h
    subst h
    exact ⟨rfl, hrows, fun i j _ => rfl⟩
  | cons x ws ih =>
    intro g g' w hrows h
    unfold fillGrid at h
    cases hstep : pySet2 g x.1 x.2.1 x.2.2 with
    | error e => rw [hstep] at h; exact absurd h (by simp)
    | ok g1 =>
      rw [hstep] at h
      obtain ⟨hlen1, hrows1⟩ := pySet2_ok_shape hrows hstep
      obtain ⟨hlen2, hrows2, hunch⟩ := ih g1 g' w hrows1 h
      refine ⟨hlen2.trans hlen1, hrows2, ?_⟩
      intro i j hnot
      have hnot1 : ∀ y ∈ ws,
          ¬(pyIdx? g1.length y.1 = some i ∧ pyIdx? w y.2.1 = some j) := by
        intro y hy
        rw [hlen1]
        exact hnot y (List.mem_cons_of_mem x hy)
      rw [hunch i j hnot1]
      exact pySet2_ok_unchanged hrows hstep (hnot x (List.mem_cons_self x ws))

lemma fillGrid_ok_of_bounds :
    ∀ (ws : List (Int × Int × String)) (g : Grid) (w : Nat),
    (∀ row ∈ g, row.length = w) →
    (∀ x ∈ ws, (pyIdx? g.length x.1).isSome ∧ (pyIdx? w x.2.1).isSome) →
    ∃ g', fillGrid g ws = .ok g' := by
  intro ws
  induction ws with
  | nil => exact fun g w _ _ => ⟨g, rfl⟩
  | cons x ws ih =>
    intro g w hrows hb
    obtain ⟨hr, hc⟩ := hb x (List.mem_cons_self x ws)
    cases hstep : pySet2 g x.1 x.2.1 x.2.2 with
    | error e =>
      exfalso
      unfold pySet2 at hstep
      split at hstep
      · rename_i hnone
        rw [hnone] at hr
        simp at hr
      · rename_i ri hri
        split at hstep
        · rename_i hcnone
          have hriw : (g.getD ri []).length = w :=
            hrows _ (getD_mem_of_lt g ri (pyIdx?_lt hri))
          rw [hriw] at hcnone
          rw [hcnone] at hc
          simp at hc
        · exact absurd hstep (by simp)
    | ok g1 =>
      obtain ⟨hlen1, hrows1⟩ := pySet2_ok_shape hrows hstep
      obtain ⟨g', hg'⟩ := ih g1 w hrows1 (by
        intro y hy
        rw [hlen1]
        exact hb y (List.mem_cons_of_mem x hy))
      refine ⟨g', ?_⟩
      unfold fillGrid
      rw [hstep]
      exact hg'

/-! ## Helper lemmas on the table loop -/

lemma processTable_ok_some {blocks : List Block} {tb : Block} {g : Grid}
    (h : processTable blocks tb = .ok (some g)) :
    ∃ r c, computeDims blocks tb = some (r, c) ∧
      fillGrid (List.replicate r (List.replicate c "")) (cellWrites blocks tb)
        = .ok g := by
  unfold processTable at h
  split at h
  · exact absurd h (by simp)
  · rename_i r c hdims
    split at h
    · exact absurd h (by simp)
    · split at h
      · exact absurd h (by simp)
      · rename_i g0 hfill
        injection h with h
        refine ⟨r, c, hdims, ?_⟩
        rw [hfill, Option.some_inj.mp h]

lemma parseTablesLoop_ok_of (blocks : List Block) :
    ∀ (tbs : List Block) (acc : List Grid),
    (∀ tb ∈ tbs, ∃ og, processTable blocks tb = .ok og) →
    ∃ gs, parseTablesLoop blocks tbs acc = .ok gs := by
  intro tbs
  induction tbs with
  | nil => exact fun acc _ => ⟨acc, rfl⟩
  | cons tb tbs ih =>
    intro acc hall
    obtain ⟨og, hog⟩ := hall tb (List.mem_cons_self tb tbs)
    have hrest : ∀ b ∈ tbs, ∃ og, processTable blocks b = .ok og :=
      fun b hb => hall b (List.mem_cons_of_mem tb hb)
    unfold parseTablesLoop
    rw [hog]
    cases og with
    | none => exact ih acc hrest
    | some g => exact ih (acc ++ [g]) hrest

lemma parseTablesLoop_mem (blocks : List Block) :
    ∀ (tbs : List Block) (acc gs : List Grid),
    parseTablesLoop blocks tbs acc = .ok gs →
    ∀ g ∈ gs, g ∈ acc ∨ ∃ tb ∈ tbs, processTable blocks tb = .ok (some g) := by
  intro tbs
  induction tbs with
  | nil =>
    intro acc gs h g hg
    unfold parseTablesLoop at h
    injection h with h
    subst h
    exact Or.inl hg
  | cons tb tbs ih =>
    intro acc gs h g hg
    unfold parseTablesLoop at h
    split at h
    · exact absurd h (by simp)
    · rcases ih acc gs h g hg with hacc | ⟨tb', htb', hok⟩
      · exact Or.inl hacc
      · exact Or.inr ⟨tb', List.mem_cons_of_mem tb htb', hok⟩
    · rename_i g0 hok0
      rcases ih (acc ++ [g0]) gs h g hg with hacc | ⟨tb', htb', hok⟩
      · rcases List.mem_append.mp hacc with hl | hr
        · exact Or.inl hl
        · have : g = g0 := by simpa using hr
          subst this
          exact Or.inr ⟨tb, List.mem_cons_self tb tbs, hok0⟩
      · exact Or.inr ⟨tb', List.mem_cons_of_mem tb htb', hok⟩

/-! ## C7: tables with no resolvable cells -/

/-- C7 counterexample: a TABLE block with a positive declared span and a
dangling child id has zero resolvable cells, yet contributes an all-empty
2×2 grid instead of "no table". -/
theorem empty_table_grid_counterexample :
    parse_textract_tables
      [{ id := "t", blockType := "TABLE", rowSpan := 2, colSpan := 2,
         relationships := some [⟨"CHILD", ["x"]⟩] }]
      = .ok [[["", ""], ["", ""]]] ∧
    resolvableCells
      [{ id := "t", blockType := "TABLE", rowSpan := 2, colSpan := 2,
         relationships := some [⟨"CHILD", ["x"]⟩] }]
      { id := "t", blockType := "TABLE", rowSpan := 2, colSpan := 2,
        relationships := some [⟨"CHILD", ["x"]⟩] } = [] :=
  ⟨rfl, rfl⟩

/-- C7 amended: a table block yields "no table" when its `Relationships`
key is absent, and also when the declared span is unusable and no cell
resolves (the fallback path); but when both declared spans are positive
and a `Relationships` key is present, zero resolvable cells yield an
all-empty grid of the declared dimensions instead of "no table". -/
theorem no_cells_no_table_characterization (blocks : List Block) (tb : Block) :
    (tb.relationships = none → processTable blocks tb = .ok none) ∧
    (¬(0 < tb.rowSpan ∧ 0 < tb.colSpan) → resolvableCells blocks tb = [] →
      processTable blocks tb = .ok none) ∧
    ((0 < tb.rowSpan ∧ 0 < tb.colSpan) → tb.relationships ≠ none →
      resolvableCells blocks tb = [] →
      processTable blocks tb
        = .ok (some (List.replicate tb.rowSpan.toNat
            (List.replicate tb.colSpan.toNat "")))) := by
  refine ⟨?_, ?_, ?_⟩
  · intro h
    by_cases hs : 0 < tb.rowSpan ∧ 0 < tb.colSpan <;>
      simp [processTable, computeDims, hs, h]
  · intro hs hcells
    by_cases hrel : tb.relationships.isNone <;>
      simp [processTable, computeDims, hs, hrel, hcells]
  · intro hs hrel hcells
    have hw : cellWrites blocks tb = [] := by
      simp [cellWrites, hcells]
    have hrel' : tb.relationships.isNone = false := by
      cases hr0 : tb.relationships with
      | none => exact absurd hr0 hrel
      | some rels => rfl
    simp [processTable, computeDims, hs, hrel', hw, fillGrid]

/-- C7 witness: the amended characterization at concrete inputs — a table
block with no `Relationships` key yields no table; one with a positive
span and only a dangling child yields the empty 2×2 grid. -/
theorem no_cells_no_table_witness :
    processTable [] { id := "t", blockType := "TABLE" } = .ok none ∧
    processTable
      [{ id := "t", blockType := "TABLE", rowSpan := 2, colSpan := 2,
         relationships := some [⟨"CHILD", ["x"]⟩] }]
      { id := "t", blockType := "TABLE", rowSpan := 2, colSpan := 2,
        relationships := some [⟨"CHILD", ["x"]⟩] }
      = .ok (some (List.replicate ((2 : Int)).toNat
          (List.replicate ((2 : Int)).toNat ""))) :=
  ⟨(no_cells_no_table_characterization [] _).1 rfl,
   (no_cells_no_table_characterization _ _).2.2 (by decide) (by decide)
     (by decide)⟩

/-! ## C1: out-of-bounds cells -/

/-- C1 counterexample: a declared 1×1 table with a CELL child at
`RowIndex = 3` makes `parse_textract_tables` raise an `IndexError`
instead of dropping the cell and returning the 1×1 grid. -/
theorem parse_tables_oob_counterexample :
    parse_textract_tables
      [{ id := "t", blockType := "TABLE", rowSpan := 1, colSpan := 1,
         relationships := some [⟨"CHILD", ["c1"]⟩] },
       { id := "c1", blockType := "CELL", rowIndex := 3, colIndex := 1 }]
      = .error "IndexError" ∧
    ((3 : Int) - 1 ≥ (1 : Int)) :=
  ⟨rfl, by decide⟩

/-- C1 amended: the parser is *not* total over block lists with
out-of-bounds cells — such a cell raises an `IndexError` that aborts the
whole call (see the counterexample) — but whenever every resolvable cell
of every TABLE block addresses a position inside that block's computed
dimensions, `parse_textract_tables` succeeds, and each returned grid has
exactly the dimensions computed for its source TABLE block: `r` rows,
each of width `c`, where `computeDims` gave `(r, c)`. -/
theorem parse_tables_total_when_in_bounds (blocks : List Block)
    (h : wellIndexed blocks = true) :
    ∃ gs, parse_textract_tables blocks = .ok gs ∧
      ∀ g ∈ gs, ∃ tb ∈ blocks.filter (fun b => b.blockType == "TABLE"),
        ∃ r c, computeDims blocks tb = some (r, c) ∧
          g.length = r ∧ ∀ row ∈ g, row.length = c := by
  have hok : ∃ gs, parse_textract_tables blocks = .ok gs := by
    unfold parse_textract_tables
    apply parseTablesLoop_ok_of
    intro tb htb
    have hib : tableInBounds blocks tb = true := by
      unfold wellIndexed at h
      exact List.all_eq_true.mp h tb htb
    unfold processTable
    cases hdims : computeDims blocks tb with
    | none => exact ⟨none, rfl⟩
    | some p =>
      obtain ⟨r, c⟩ := p
      by_cases hrel : tb.relationships.isNone
      · exact ⟨none, by simp [hrel]⟩
      · have hbounds : ∀ x ∈ cellWrites blocks tb,
            (pyIdx? (List.replicate r (List.replicate c "")).length x.1).isSome
              ∧ (pyIdx? c x.2.1).isSome := by
          unfold tableInBounds at hib
          rw [hdims] at hib
          intro x hx
          have := List.all_eq_true.mp hib x hx
          rw [List.length_replicate]
          exact ⟨(Bool.and_eq_true _ _).mp this |>.1,
                 (Bool.and_eq_true _ _).mp this |>.2⟩
        obtain ⟨g', hg'⟩ := fillGrid_ok_of_bounds (cellWrites blocks tb)
          (List.replicate r (List.replicate c "")) c
          (fun row hrow => by
            rw [List.eq_of_mem_replicate hrow]
            exact List.length_replicate _ _)
          hbounds
        refine ⟨some g', ?_⟩
        simp only [hrel, if_false, Bool.false_eq_true]
        rw [hg']
  obtain ⟨gs, hgs⟩ := hok
  refine ⟨gs, hgs, ?_⟩
  intro g hg
  unfold parse_textract_tables at hgs
  rcases parseTablesLoop_mem blocks _ [] gs hgs g hg with hacc | ⟨tb, htb, hok⟩
  · exact absurd hacc (List.not_mem_nil g)
  · obtain ⟨r, c, hdims, hfill⟩ := processTable_ok_some hok
    have hinit : ∀ row ∈ List.replicate r (List.replicate c ""),
        row.length = c := fun row hrow => by
      rw [List.eq_of_mem_replicate hrow]
      exact List.length_replicate _ _
    obtain ⟨hlen, hrows, _⟩ :=
      fillGrid_shape_unchanged (cellWrites blocks tb) _ g c hinit hfill
    rw [List.length_replicate] at hlen
    exact ⟨tb, htb, r, c, hdims, hlen, hrows⟩

/-- C1 witness: a well-indexed two-block graph parses successfully and
every returned grid carries its block's computed dimensions. -/
theorem parse_tables_total_when_in_bounds_witness :
    wellIndexed
      [{ id := "t", blockType := "TABLE", rowSpan := 2, colSpan := 2,
         relationships := some [⟨"CHILD", ["c1"]⟩] },
       { id := "c1", blockType := "CELL", rowIndex := 2, colIndex := 1 }]
      = true ∧
    ∃ gs, parse_textract_tables
      [{ id := "t", blockType := "TABLE", rowSpan := 2, colSpan := 2,
         relationships := some [⟨"CHILD", ["c1"]⟩] },
       { id := "c1", blockType := "CELL", rowIndex := 2, colIndex := 1 }]
      = .ok gs ∧
      ∀ g ∈ gs, ∃ tb ∈
        (([{ id := "t", blockType := "TABLE", rowSpan := 2, colSpan := 2,
             relationships := some [⟨"CHILD", ["c1"]⟩] },
           { id := "c1", blockType := "CELL", rowIndex := 2, colIndex := 1 }]
          : List Block).filter (fun b => b.blockType == "TABLE")),
        ∃ r c, computeDims
          [{ id := "t", blockType := "TABLE", rowSpan := 2, colSpan := 2,
             relationships := some [⟨"CHILD", ["c1"]⟩] },
           { id := "c1", blockType := "CELL", rowIndex := 2, colIndex := 1 }]
          tb = some (r, c) ∧
          g.length = r ∧ ∀ row ∈ g, row.length = c :=
  ⟨by decide, parse_tables_total_when_in_bounds _ (by decide)⟩

/-! ## C8: density of every produced grid -/

/-- C8: every grid a successful parse returns is dense — it comes from
one TABLE block, all its rows share one width, and every in-range
coordinate that no resolvable cell of that block writes to (after
Python index resolution) holds the empty string. -/
theorem grid_density (blocks : List Block) (gs : List Grid)
    (h : parse_textract_tables blocks = .ok gs) :
    ∀ g ∈ gs, ∃ tb ∈ blocks, tb.blockType = "TABLE" ∧
      processTable blocks tb = .ok (some g) ∧
      ∃ w, (∀ row ∈ g, row.length = w) ∧
        ∀ i j : Nat, i < g.length → j < w →
          (∀ x ∈ cellWrites blocks tb,
            ¬(pyIdx? g.length x.1 = some i ∧ pyIdx? w x.2.1 = some j)) →
          (g.getD i []).getD j "" = "" := by
  intro g hg
  unfold parse_textract_tables at h
  rcases parseTablesLoop_mem blocks _ [] gs h g hg with hacc | ⟨tb, htb, hok⟩
  · exact absurd hacc (List.not_mem_nil g)
  · obtain ⟨htbmem, htbty⟩ := List.mem_filter.mp htb
    refine ⟨tb, htbmem, by simpa using htbty, hok, ?_⟩
    obtain ⟨r, c, hdims, hfill⟩ := processTable_ok_some hok
    have hinit : ∀ row ∈ List.replicate r (List.replicate c ""),
        row.length = c := fun row hrow => by
      rw [List.eq_of_mem_replicate hrow]
      exact List.length_replicate _ _
    obtain ⟨hlen, hrows, hunch⟩ :=
      fillGrid_shape_unchanged (cellWrites blocks tb) _ g c hinit hfill
    rw [List.length_replicate] at hlen
    refine ⟨c, hrows, ?_⟩
    intro i j hi hj hnot
    have hnot' : ∀ x ∈ cellWrites blocks tb,
        ¬(pyIdx? (List.replicate r (List.replicate c "")).length x.1 = some i
          ∧ pyIdx? c x.2.1 = some j) := by
      intro x hx
      rw [List.length_replicate]
      rw [hlen] at hnot
      exact hnot x hx
    rw [hunch i j hnot']
    have hir : i < r := by
      rw [hlen] at hi
      exact hi
    have h1 : (List.replicate r (List.replicate c "")).getD i []
        = List.replicate c "" := by
      rw [List.getD_eq_getElem _ _ (by simpa using hir)]
      exact List.getElem_replicate _ _
    rw [h1]
    rw [List.getD_eq_getElem _ _ (by simpa using hj)]
    exact List.getElem_replicate _ _

/-- C8 witness: a concrete sparse table — one resolvable cell in a
declared 2×2 grid — yields a grid that the density theorem applies to. -/
theorem grid_density_witness :
    parse_textract_tables
      [{ id := "t", blockType := "TABLE", rowSpan := 2, colSpan := 2,
         relationships := some [⟨"CHILD", ["c1", "zz"]⟩] },
       { id := "c1", blockType := "CELL", rowIndex := 1, colIndex := 2,
         relationships := some [⟨"CHILD", ["w1"]⟩] },
       { id := "w1", blockType := "WORD", text := "v" }]
      = .ok [[["", "v"], ["", ""]]] ∧
    (∀ g ∈ [[["", "v"], ["", ""]]], ∃ tb ∈
      [{ id := "t", blockType := "TABLE", rowSpan := 2, colSpan := 2,
         relationships := some [⟨"CHILD", ["c1", "zz"]⟩] },
       { id := "c1", blockType := "CELL", rowIndex := 1, colIndex := 2,
         relationships := some [⟨"CHILD", ["w1"]⟩] },
       { id := "w1", blockType := "WORD", text := "v" }], tb.blockType = "TABLE" ∧
      processTable
        [{ id := "t", blockType := "TABLE", rowSpan := 2, colSpan := 2,
           relationships := some [⟨"CHILD", ["c1", "zz"]⟩] },
         { id := "c1", blockType := "CELL", rowIndex := 1, colIndex := 2,
           relationships := some [⟨"CHILD", ["w1"]⟩] },
         { id := "w1", blockType := "WORD", text := "v" }] tb = .ok (some g) ∧
      ∃ w, (∀ row ∈ g, row.length = w) ∧
        ∀ i j : Nat, i < g.length → j < w →
          (∀ x ∈ cellWrites
            [{ id := "t", blockType := "TABLE", rowSpan := 2, colSpan := 2,
               relationships := some [⟨"CHILD", ["c1", "zz"]⟩] },
             { id := "c1", blockType := "CELL", rowIndex := 1, colIndex := 2,
               relationships := some [⟨"CHILD", ["w1"]⟩] },
             { id := "w1", blockType := "WORD", text := "v" }] tb,
            ¬(pyIdx? g.length x.1 = some i ∧ pyIdx? w x.2.1 = some j)) →
          (g.getD i []).getD j "" = "") :=
  ⟨rfl, grid_density _ _ rfl⟩

/-! ## Helper lemmas on the strict-improvement argmax -/

lemma argmax_fold_spec : ∀ (l : List Nat) (n : Nat) (acc : Nat × Nat),
    (((l.enumFrom n).foldl (fun acc p => if p.2 > acc.2 then p else acc) acc
        = acc ∧ ∀ x ∈ l, x ≤ acc.2) ∨
     (∃ k, k < l.length ∧
        ((l.enumFrom n).foldl (fun acc p => if p.2 > acc.2 then p else acc) acc).1
          = n + k ∧
        ((l.enumFrom n).foldl (fun acc p => if p.2 > acc.2 then p else acc) acc).2
          = l.getD k 0 ∧
        acc.2 < l.getD k 0 ∧
        (∀ x ∈ l, x ≤ l.getD k 0) ∧
        (∀ i < k, l.getD i 0 < l.getD k 0))) := by
  intro l
  induction l with
  | nil => intro n acc; exact Or.inl ⟨rfl, by simp⟩
  | cons x t ih =>
    intro n acc
    have hstep : (x :: t).enumFrom n = (n, x) :: t.enumFrom (n + 1) := rfl
    rw [hstep, List.foldl_cons]
    by_cases hx : x > acc.2
    · rw [if_pos hx]
      rcases ih (n + 1) (n, x) with ⟨hr, hall⟩ | ⟨k, hk, h1, h2, h3, h4, h5⟩
      · have hall' : ∀ y ∈ t, y ≤ x := hall
        refine Or.inr ⟨0, by simp, ?_, ?_, ?_, ?_, ?_⟩
        · rw [hr]
          simp
        · rw [hr]
          simp
        · simpa using hx
        · intro y hy
          rcases List.mem_cons.mp hy with rfl | hyt
          · simp
          · simpa using hall' y hyt
        · intro i hi
          omega
      · have h3' : x < t.getD k 0 := h3
        refine Or.inr ⟨k + 1, by simpa using hk, ?_, ?_, ?_, ?_, ?_⟩
        · rw [h1]; omega
        · rw [h2]; rfl
        · simp only [List.getD_cons_succ]
          omega
        · intro y hy
          simp only [List.getD_cons_succ]
          rcases List.mem_cons.mp hy with rfl | hyt
          · exact le_of_lt h3'
          · exact h4 y hyt
        · intro i hi
          cases i with
          | zero =>
            simp only [List.getD_cons_zero, List.getD_cons_succ]
            exact h3'
          | succ i' =>
            simp only [List.getD_cons_succ]
            exact h5 i' (by omega)
    · rw [if_neg hx]
      have hxle : x ≤ acc.2 := by omega
      rcases ih (n + 1) acc with ⟨hr, hall⟩ | ⟨k, hk, h1, h2, h3, h4, h5⟩
      · refine Or.inl ⟨hr, ?_⟩
        intro y hy
        rcases List.mem_cons.mp hy with rfl | hyt
        · exact hxle
        · exact hall y hyt
      · refine Or.inr ⟨k + 1, by simpa using hk, ?_, ?_, ?_, ?_, ?_⟩
        · rw [h1]; omega
        · rw [h2]; rfl
        · simp only [List.getD_cons_succ]
          omega
        · intro y hy
          simp only [List.getD_cons_succ]
          rcases List.mem_cons.mp hy with rfl | hyt
          · omega
          · exact h4 y hyt
        · intro i hi
          cases i with
          | zero =>
            simp only [List.getD_cons_zero, List.getD_cons_succ]
            omega
          | succ i' =>
            simp only [List.getD_cons_succ]
            exact h5 i' (by omega)

lemma getD_mem_nat (l : List Nat) (j : Nat) (hj : j < l.length) :
    l.getD j 0 ∈ l := by
  rw [List.getD_eq_getElem _ _ hj]
  exact List.getElem_mem hj

lemma argmaxStrict_le (counts : List Nat) :
    ∀ j < counts.length,
      counts.getD j 0 ≤ counts.getD (argmaxStrict counts).1 0 := by
  intro j hj
  unfold argmaxStrict
  rw [show counts.enum = counts.enumFrom 0 from rfl]
  rcases argmax_fold_spec counts 0 (0, 0) with ⟨hr, hall⟩ | ⟨k, hk, h1, h2, h3, h4, h5⟩
  · rw [hr]
    have hje := hall _ (getD_mem_nat counts j hj)
    cases counts with
    | nil => simp at hj
    | cons x t =>
      have hx0 := hall x (List.mem_cons_self x t)
      simp only [List.getD_cons_zero]
      omega
  · rw [h1]
    rw [Nat.zero_add]
    exact h4 _ (getD_mem_nat counts j hj)

lemma argmaxStrict_first (counts : List Nat) :
    ∀ j < (argmaxStrict counts).1,
      counts.getD j 0 < counts.getD (argmaxStrict counts).1 0 := by
  unfold argmaxStrict
  rw [show counts.enum = counts.enumFrom 0 from rfl]
  intro j hj
  rcases argmax_fold_spec counts 0 (0, 0) with ⟨hr, hall⟩ | ⟨k, hk, h1, h2, h3, h4, h5⟩
  · rw [hr] at hj
    simp at hj
  · rw [h1] at hj ⊢
    rw [Nat.zero_add] at hj ⊢
    exact h5 j hj

lemma argmaxStrict_lt_len (counts : List Nat) (h : counts ≠ []) :
    (argmaxStrict counts).1 < counts.length := by
  unfold argmaxStrict
  rw [show counts.enum = counts.enumFrom 0 from rfl]
  rcases argmax_fold_spec counts 0 (0, 0) with ⟨hr, _⟩ | ⟨k, hk, h1, _, _, _, _⟩
  · rw [hr]
    cases counts with
    | nil => exact absurd rfl h
    | cons x t => simp
  · rw [h1]
    simpa using hk

/-! ## C2: table merging -/

lemma mergeTables_fold_aux :
    ∀ (rest : List Grid) (n : Nat) (acc : Grid), 1 ≤ n →
    (rest.enumFrom n).foldl (fun acc p =>
        if p.1 == 0 then acc ++ p.2
        else acc ++ p.2.drop (mergeHeaderIdx p.2 + 1)) acc
      = acc ++ rest.flatMap (fun g => g.drop (mergeHeaderIdx g + 1)) := by
  intro rest
  induction rest with
  | nil => intro n acc _; simp
  | cons g t ih =>
    intro n acc hn
    have hstep : (g :: t).enumFrom n = (n, g) :: t.enumFrom (n + 1) := rfl
    rw [hstep, List.foldl_cons]
    have hne : (n == 0) = false := by
      simp
      omega
    rw [hne]
    simp only [Bool.false_eq_true, if_false]
    rw [ih (n + 1) _ (by omega)]
    simp

/-- C2 counterexample: grid 1's first two rows are exact copies of
grid 0's header row (`h₁ = 2`), yet the strict-improvement scan detects
index 0, so only one row is discarded: the merge has 4 rows where the
claim's formula `rows(g₀) + (rows(g₁) − h₁)` predicts 3 — one header copy
survives into the data. -/
theorem merge_row_count_counterexample :
    ([["a", "b"], ["a", "b"], ["3", "4"]] : Grid).take 2
      = [([["a", "b"], ["1", "2"]] : Grid).getD 0 [],
         ([["a", "b"], ["1", "2"]] : Grid).getD 0 []] ∧
    mergeTables [[["a", "b"], ["1", "2"]], [["a", "b"], ["a", "b"], ["3", "4"]]]
      = [["a", "b"], ["1", "2"], ["a", "b"], ["3", "4"]] ∧
    (mergeTables [[["a", "b"], ["1", "2"]],
        [["a", "b"], ["a", "b"], ["3", "4"]]]).length ≠ 2 + (3 - 2) :=
  ⟨rfl, by decide, by decide⟩

/-- C2 amended: the merge keeps the first grid in full and, from every
subsequent grid, discards exactly the rows up to and including the
detected index `mergeHeaderIdx` — the first row among the first five
whose non-empty-cell count is never exceeded, strictly larger than every
earlier one (index 0 when all counts are zero) — preserving the relative
order of the retained rows; the merged row count is
`rows(g₀) + Σ (rows(gᵢ) − (dᵢ+1))`.  The claim's `h_i` formula holds only
when `dᵢ + 1 = h_i`. -/
theorem merge_tables_closed_form (g0 : Grid) (rest : List Grid) :
    mergeTables (g0 :: rest)
      = g0 ++ rest.flatMap (fun g => g.drop (mergeHeaderIdx g + 1)) ∧
    (mergeTables (g0 :: rest)).length
      = g0.length + (rest.map (fun g => g.length - (mergeHeaderIdx g + 1))).sum ∧
    (∀ g : Grid, g ≠ [] →
      mergeHeaderIdx g < ((g.take 5).map mergeRowCount).length) ∧
    (∀ g : Grid, ∀ j, j < ((g.take 5).map mergeRowCount).length →
      ((g.take 5).map mergeRowCount).getD j 0
        ≤ ((g.take 5).map mergeRowCount).getD (mergeHeaderIdx g) 0) ∧
    (∀ g : Grid, ∀ j, j < mergeHeaderIdx g →
      ((g.take 5).map mergeRowCount).getD j 0
        < ((g.take 5).map mergeRowCount).getD (mergeHeaderIdx g) 0) := by
  have hclosed : mergeTables (g0 :: rest)
      = g0 ++ rest.flatMap (fun g => g.drop (mergeHeaderIdx g + 1)) := by
    unfold mergeTables
    rw [show (g0 :: rest).enum = (0, g0) :: rest.enumFrom 1 from rfl,
      List.foldl_cons]
    exact mergeTables_fold_aux rest 1 g0 le_rfl
  refine ⟨hclosed, ?_, ?_, ?_, ?_⟩
  · rw [hclosed]
    simp only [List.length_append, List.length_flatMap]
    congr 1
    apply congrArg List.sum
    apply List.map_congr_left
    intro g _
    simp
  · intro g hg
    apply argmaxStrict_lt_len
    simp only [ne_eq, List.map_eq_nil_iff, List.take_eq_nil_iff]
    simpa using hg
  · intro g j hj
    exact argmaxStrict_le _ j hj
  · intro g j hj
    exact argmaxStrict_first _ j hj

/-- C2 witness: the amended statement at the counterexample's grids — the
detected index of the continuation grid is 0, so exactly one row is
discarded. -/
theorem merge_tables_closed_form_witness :
    mergeTables [[["a", "b"], ["1", "2"]], [["a", "b"], ["a", "b"], ["3", "4"]]]
      = [["a", "b"], ["1", "2"]]
        ++ [([["a", "b"], ["a", "b"], ["3", "4"]] : Grid)].flatMap
            (fun g => g.drop (mergeHeaderIdx g + 1)) ∧
    (mergeTables [[["a", "b"], ["1", "2"]],
        [["a", "b"], ["a", "b"], ["3", "4"]]]).length
      = 2 + (3 - (mergeHeaderIdx [["a", "b"], ["a", "b"], ["3", "4"]] + 1)) :=
  ⟨(merge_tables_closed_form [["a", "b"], ["1", "2"]]
      [[["a", "b"], ["a", "b"], ["3", "4"]]]).1,
   ((merge_tables_closed_form [["a", "b"], ["1", "2"]]
      [[["a", "b"], ["a", "b"], ["3", "4"]]]).2.1).trans (by decide)⟩

/-! ## C3: the positional-fallback condition -/

lemma filterMap_all_some {α β : Type} (f : α → Option β) (g : α → β) :
    ∀ (l : List α), (∀ a ∈ l, f a = some (g a)) → l.filterMap f = l.map g := by
  intro l
  induction l with
  | nil => intro _; rfl
  | cons x t ih =>
    intro h
    rw [List.filterMap_cons, h x (List.mem_cons_self x t), List.map_cons,
      ih (fun a ha => h a (List.mem_cons_of_mem x ha))]

lemma filterMap_lt_of_none {α β : Type} (f : α → Option β) :
    ∀ (l : List α), (∃ a ∈ l, f a = none) →
      (l.filterMap f).length < l.length := by
  intro l
  induction l with
  | nil => rintro ⟨a, ha, _⟩; exact absurd ha (List.not_mem_nil a)
  | cons x t ih =>
    rintro ⟨a, ha, hfa⟩
    rw [List.filterMap_cons]
    cases hx : f x with
    | none =>
      have := List.length_filterMap_le f t
      simp only [List.length_cons]
      omega
    | some b =>
      have hat : a ∈ t := by
        rcases List.mem_cons.mp ha with rfl | h
        · rw [hx] at hfa
          exact absurd hfa (by simp)
        · exact h
      have := ih ⟨a, hat, hfa⟩
      simp only [List.length_cons]
      omega

lemma dedup_length_eq_iff (l : List String) :
    l.dedup.length = l.length ↔ l.Nodup := by
  constructor
  · intro h
    have hsub := List.dedup_sublist l
    have heq := List.Sublist.eq_of_length hsub h
    rw [← heq]
    exact List.nodup_dedup l
  · intro h
    rw [List.Nodup.dedup h]

lemma hasDuplicates_false_iff (headers : List String) :
    hasDuplicates headers = false ↔
      (∀ h ∈ headers, trimS h ≠ "") ∧
      (headers.map (fun h => lowerS (trimS h))).Nodup := by
  unfold hasDuplicates
  rw [bne_eq_false_iff_eq]
  constructor
  · intro hlen
    by_cases hne : ∀ x ∈ headers, trimS x ≠ ""
    · refine ⟨hne, ?_⟩
      have hfil : headers.filterMap (fun h =>
          if trimS h == "" then none else some (lowerS (trimS h)))
          = headers.map (fun h => lowerS (trimS h)) := by
        apply filterMap_all_some
        intro a ha
        rw [if_neg (by simpa using hne a ha)]
      rw [hfil] at hlen
      rw [← dedup_length_eq_iff]
      rw [← hlen, List.length_map]
    · exfalso
      push_neg at hne
      obtain ⟨x, hx, hxe⟩ := hne
      have hlt := filterMap_lt_of_none
        (fun h => if trimS h == "" then none else some (lowerS (trimS h)))
        headers ⟨x, hx, by simp [hxe]⟩
      have hd := List.Sublist.length_le (List.dedup_sublist
        (headers.filterMap (fun h =>
          if trimS h == "" then none else some (lowerS (trimS h)))))
      omega
  · rintro ⟨hne, hnd⟩
    have hfil : headers.filterMap (fun h =>
        if trimS h == "" then none else some (lowerS (trimS h)))
        = headers.map (fun h => lowerS (trimS h)) := by
      apply filterMap_all_some
      intro a ha
      rw [if_neg (by simpa using hne a ha)]
    rw [hfil, (dedup_length_eq_iff _).mpr hnd, List.length_map]

/-- C3 counterexample: the headers `["a", ""]` are pairwise distinct and
not all empty, so the claim prescribes fuzzy matching — but the code's
duplicate test (which drops empty headers before comparing the set size)
fires, and with two fields the mapping is positional, assigning column 0
to the fuzzy-impossible name `"zz"`. -/
theorem fallback_condition_counterexample :
    usesFallback ["a", ""] = true ∧
    headersEmpty ["a", ""] = false ∧
    (["a", ""].map (fun h => lowerS (trimS h))).Nodup ∧
    buildMapping ["a", ""] [⟨"zz", "zz"⟩, ⟨"a", "a"⟩] = [(0, "zz"), (1, "a")] :=
  ⟨rfl, rfl, by decide, by decide⟩

/-- C3 amended: the resolver falls back to positional mapping exactly when
every header is empty after trimming, or some header is empty after
trimming, or the trimmed case-insensitive headers are not pairwise
distinct — i.e. unless every header is non-empty and all are distinct;
under fallback the mapping is positional when the counts agree and empty
otherwise, and in every other case fuzzy matching is used. -/
theorem header_fallback_characterization (headers : List String)
    (fields : List SemanticField) :
    (usesFallback headers = true ↔
      (∀ h ∈ headers, trimS h = "") ∨
      ¬((∀ h ∈ headers, trimS h ≠ "") ∧
        (headers.map (fun h => lowerS (trimS h))).Nodup)) ∧
    (usesFallback headers = true →
      buildMapping headers fields
        = if fields.length = headers.length then positionalMap fields else []) ∧
    (usesFallback headers = false →
      buildMapping headers fields = fuzzyMap headers fields) := by
  refine ⟨?_, ?_, ?_⟩
  · unfold usesFallback
    rw [Bool.or_eq_true]
    constructor
    · rintro (he | hd)
      · left
        intro h hh
        have := List.all_eq_true.mp he h hh
        simpa using this
      · right
        intro hcontra
        have := (hasDuplicates_false_iff headers).mpr hcontra
        rw [this] at hd
        exact absurd hd (by simp)
    · rintro (he | hd)
      · left
        apply List.all_eq_true.mpr
        intro h hh
        simpa using he h hh
      · right
        cases hdup : hasDuplicates headers with
        | true => rfl
        | false => exact absurd ((hasDuplicates_false_iff headers).mp hdup) hd
  · intro h
    unfold buildMapping
    rw [h]
    simp only [if_true]
    by_cases hl : fields.length = headers.length
    · rw [if_pos hl, if_pos (by simpa using hl)]
    · rw [if_neg hl, if_neg (by simpa using hl)]
  · intro h
    unfold buildMapping
    rw [h]
    simp

/-- C3 witness: duplicated headers with matching counts map positionally. -/
theorem header_fallback_witness :
    usesFallback ["Sales", "Sales"] = true ∧
    buildMapping ["Sales", "Sales"] [⟨"a", "a"⟩, ⟨"b", "b"⟩]
      = positionalMap [⟨"a", "a"⟩, ⟨"b", "b"⟩] :=
  ⟨by decide,
   ((header_fallback_characterization ["Sales", "Sales"]
      [⟨"a", "a"⟩, ⟨"b", "b"⟩]).2.1 (by decide)).trans (by decide)⟩

/-! ## C4: value cleaning -/

lemma removeFirst_not_mem {c : Char} : ∀ (l : List Char), c ∉ l →
    removeFirst c l = l := by
  intro l
  induction l with
  | nil => intro _; rfl
  | cons x t ih =>
    intro h
    have hx : ¬x = c := fun he => h (he ▸ List.mem_cons_self x t)
    rw [removeFirst, if_neg hx, ih (fun ht => h (List.mem_cons_of_mem x ht))]

lemma removeFirst_cons_ne {c x : Char} (h : ¬x = c) (l : List Char) :
    removeFirst c (x :: l) = x :: removeFirst c l := by
  rw [removeFirst, if_neg h]

lemma removeFirst_append {c : Char} : ∀ (l1 l2 : List Char), c ∉ l1 →
    removeFirst c (l1 ++ c :: l2) = l1 ++ l2 := by
  intro l1
  induction l1 with
  | nil => intro l2 _; simp [removeFirst]
  | cons x t ih =>
    intro l2 h
    have hx : ¬x = c := fun he => h (he ▸ List.mem_cons_self x t)
    simp only [List.cons_append]
    rw [removeFirst_cons_ne hx, ih l2 (fun ht => h (List.mem_cons_of_mem x ht))]

lemma digit_ne_dot {c : Char} (h : c.isDigit = true) : ¬c = '.' :=
  fun he => absurd h (by rw [he]; decide)

lemma digit_ne_plus {c : Char} (h : c.isDigit = true) : ¬c = '+' :=
  fun he => absurd h (by rw [he]; decide)

lemma digit_ne_minus {c : Char} (h : c.isDigit = true) : ¬c = '-' :=
  fun he => absurd h (by rw [he]; decide)

lemma splitAtDot : ∀ (l : List Char), '.' ∈ l →
    l = l.takeWhile (· ≠ '.') ++ '.' :: (l.dropWhile (· ≠ '.')).tail ∧
    '.' ∉ l.takeWhile (· ≠ '.') := by
  intro l
  induction l with
  | nil => intro h; exact absurd h (List.not_mem_nil _)
  | cons x t ih =>
    intro h
    by_cases hx : x = '.'
    · subst hx
      constructor
      · simp [List.takeWhile, List.dropWhile]
      · simp [List.takeWhile]
    · have hdt : '.' ∈ t := by
        rcases List.mem_cons.mp h with he | ht
        · exact absurd he.symm hx
        · exact ht
      obtain ⟨ih1, ih2⟩ := ih hdt
      have htw : (x :: t).takeWhile (· ≠ '.') = x :: t.takeWhile (· ≠ '.') := by
        simp [List.takeWhile, hx]
      have hdw : (x :: t).dropWhile (· ≠ '.') = t.dropWhile (· ≠ '.') := by
        simp [List.dropWhile, hx]
      constructor
      · rw [htw, hdw, List.cons_append]
        exact congrArg (x :: ·) ih1
      · rw [htw]
        intro hmem
        rcases List.mem_cons.mp hmem with he | ht
        · exact hx he.symm
        · exact ih2 ht

lemma body_dot_parts (body : List Char)
    (hall : ∀ x ∈ body, x.isDigit = true ∨ x = '.')
    (hcount : body.count '.' ≤ 1)
    (hdot : '.' ∈ body) :
    (∀ x ∈ body.takeWhile (· ≠ '.'), x.isDigit = true) ∧
    (∀ x ∈ (body.dropWhile (· ≠ '.')).tail, x.isDigit = true) ∧
    '.' ∉ (body.dropWhile (· ≠ '.')).tail ∧
    removeFirst '.' body
      = body.takeWhile (· ≠ '.') ++ (body.dropWhile (· ≠ '.')).tail := by
  obtain ⟨hsplit, hd1⟩ := splitAtDot body hdot
  have hcnt : body.count '.'
      = (body.takeWhile (· ≠ '.')).count '.'
        + (1 + ((body.dropWhile (· ≠ '.')).tail).count '.') := by
    conv_lhs => rw [hsplit]
    rw [List.count_append, List.count_cons]
    simp [Nat.add_comm]
  have hd1cnt : (body.takeWhile (· ≠ '.')).count '.' = 0 :=
    List.count_eq_zero.mpr hd1
  have hd2cnt : ((body.dropWhile (· ≠ '.')).tail).count '.' = 0 := by omega
  have hd2 : '.' ∉ (body.dropWhile (· ≠ '.')).tail :=
    List.count_eq_zero.mp hd2cnt
  refine ⟨?_, ?_, hd2, ?_⟩
  · intro x hx
    have hxb : x ∈ body := (List.takeWhile_sublist _).mem hx
    rcases hall x hxb with hd | he
    · exact hd
    · exact absurd (he ▸ hx) hd1
  · intro x hx
    have hxb : x ∈ body := by
      rw [hsplit]
      exact List.mem_append.mpr (Or.inr (List.mem_cons_of_mem _ hx))
    rcases hall x hxb with hd | he
    · exact hd
    · exact absurd (he ▸ hx) hd2
  · conv_lhs => rw [hsplit]
    exact removeFirst_append _ _ hd1

lemma body_nodot_parts (body : List Char)
    (hall : ∀ x ∈ body, x.isDigit = true ∨ x = '.')
    (hnodot : '.' ∉ body) :
    (∀ x ∈ body, x.isDigit = true) ∧ removeFirst '.' body = body := by
  refine ⟨?_, removeFirst_not_mem body hnodot⟩
  intro x hx
  rcases hall x hx with hd | he
  · exact hd
  · exact absurd (he ▸ hx) hnodot

/-- The digits that remain once the single dot is removed from a
pattern-matching body: they are all digits and at least one exists. -/
lemma removeFirst_dot_digits (body : List Char)
    (hall : ∀ x ∈ body, x.isDigit = true ∨ x = '.')
    (hcount : body.count '.' ≤ 1)
    (hany : ∃ x ∈ body, x.isDigit = true) :
    (∀ x ∈ removeFirst '.' body, x.isDigit = true) ∧
    removeFirst '.' body ≠ [] := by
  by_cases hdot : '.' ∈ body
  · obtain ⟨h1, h2, _, hrm⟩ := body_dot_parts body hall hcount hdot
    obtain ⟨hsplit, _⟩ := splitAtDot body hdot
    constructor
    · intro x hx
      rw [hrm] at hx
      rcases List.mem_append.mp hx with h | h
      · exact h1 x h
      · exact h2 x h
    · obtain ⟨x, hx, hxd⟩ := hany
      rw [hsplit] at hx
      intro hemp
      rw [hrm] at hemp
      rcases List.mem_append.mp hx with h | h
      · rw [List.append_eq_nil] at hemp
        rw [hemp.1] at h
        exact List.not_mem_nil x h
      · rcases List.mem_cons.mp h with he | ht
        · exact digit_ne_dot hxd he
        · rw [List.append_eq_nil] at hemp
          rw [hemp.2] at ht
          exact List.not_mem_nil x ht
  · obtain ⟨h1, hrm⟩ := body_nodot_parts body hall hdot
    rw [hrm]
    obtain ⟨x, hx, _⟩ := hany
    exact ⟨h1, fun hemp => List.not_mem_nil x (hemp ▸ hx)⟩

/-- `sloppyNumeric` holds for a string of shape `sign? ++ body` whenever
`body` matches the claim's numeric pattern. -/
lemma sloppy_of_pat (vc body : List Char)
    (hshape : vc = body ∨ vc = '+' :: body ∨ vc = '-' :: body)
    (hall : ∀ x ∈ body, x.isDigit = true ∨ x = '.')
    (hcount : body.count '.' ≤ 1)
    (hany : ∃ x ∈ body, x.isDigit = true) :
    sloppyNumeric vc = true := by
  obtain ⟨hdig, hne⟩ := removeFirst_dot_digits body hall hcount hany
  have hnoplus : '+' ∉ removeFirst '.' body :=
    fun h => digit_ne_plus (hdig _ h) rfl
  have hnominus : '-' ∉ removeFirst '.' body :=
    fun h => digit_ne_minus (hdig _ h) rfl
  have hfinal : (!(removeFirst '.' body).isEmpty
      && (removeFirst '.' body).all Char.isDigit) = true := by
    rw [Bool.and_eq_true]
    constructor
    · simp [List.isEmpty_iff, hne]
    · exact List.all_eq_true.mpr hdig
  rcases hshape with rfl | rfl | rfl
  · unfold sloppyNumeric
    rw [removeFirst_not_mem _ hnominus, removeFirst_not_mem _ hnoplus]
    exact hfinal
  · unfold sloppyNumeric
    rw [removeFirst_cons_ne (by decide) body,
      removeFirst_cons_ne (by decide) (removeFirst '.' body),
      removeFirst_not_mem _ hnominus, removeFirst, if_pos rfl]
    exact hfinal
  · unfold sloppyNumeric
    rw [removeFirst_cons_ne (by decide) body, removeFirst, if_pos rfl,
      removeFirst_not_mem _ hnoplus]
    exact hfinal

lemma patB_iff (body : List Char) :
    (body.all (fun ch => ch.isDigit || ch = '.') &&
      decide (body.count '.' ≤ 1) && body.any Char.isDigit) = true ↔
    ((∀ x ∈ body, x.isDigit = true ∨ x = '.') ∧ body.count '.' ≤ 1 ∧
      ∃ x ∈ body, x.isDigit = true) := by
  simp only [Bool.and_eq_true, List.all_eq_true, List.any_eq_true,
    Bool.or_eq_true, decide_eq_true_eq, and_assoc]

lemma pyIntCore_isSome_iff (body : List Char) (hnodot : '.' ∉ body) :
    (pyIntCore body).isSome = true ↔
      (body.all (fun ch => ch.isDigit || ch = '.') &&
        decide (body.count '.' ≤ 1) && body.any Char.isDigit) = true := by
  rw [patB_iff]
  unfold pyIntCore
  by_cases hg : (!body.isEmpty && body.all Char.isDigit) = true
  · rw [if_pos hg]
    simp only [Option.isSome_some, true_iff]
    obtain ⟨hne, hdig⟩ := Bool.and_eq_true _ _ |>.mp hg
    have hdig' := List.all_eq_true.mp hdig
    have hbne : body ≠ [] := by
      intro he
      rw [he] at hne
      exact absurd hne (by decide)
    refine ⟨fun x hx => Or.inl (hdig' x hx), ?_, ?_⟩
    · rw [List.count_eq_zero.mpr hnodot]
      omega
    · cases body with
      | nil => exact absurd rfl hbne
      | cons x t => exact ⟨x, List.mem_cons_self x t, hdig' x (List.mem_cons_self x t)⟩
  · rw [if_neg hg]
    simp only [Option.isSome_none, Bool.false_eq_true, false_iff]
    rintro ⟨hall, _, x, hx, hxd⟩
    apply hg
    rw [Bool.and_eq_true]
    constructor
    · have : body ≠ [] := fun he => List.not_mem_nil x (he ▸ hx)
      simp [List.isEmpty_iff, this]
    · apply List.all_eq_true.mpr
      intro y hy
      rcases hall y hy with hd | he
      · exact hd
      · exact absurd (he ▸ hy) hnodot

lemma pyFloatCore_isSome_iff (body : List Char) :
    (pyFloatCore body).isSome = true ↔
      (body.all (fun ch => ch.isDigit || ch = '.') &&
        decide (body.count '.' ≤ 1) && body.any Char.isDigit) = true := by
  by_cases hdot : '.' ∈ body
  · have hcont : body.contains '.' = true := by simpa using hdot
    rw [patB_iff]
    unfold pyFloatCore
    rw [hcont]
    simp only [if_true]
    obtain ⟨hsplit, hd1nd⟩ := splitAtDot body hdot
    by_cases hg : ((body.takeWhile (· ≠ '.')).all Char.isDigit &&
        ((body.dropWhile (· ≠ '.')).tail).all Char.isDigit &&
        !((body.dropWhile (· ≠ '.')).tail).contains '.' &&
        !((body.takeWhile (· ≠ '.')).isEmpty &&
          ((body.dropWhile (· ≠ '.')).tail).isEmpty)) = true
    · rw [if_pos hg]
      simp only [Option.isSome_some, true_iff]
      have hg' := hg
      simp only [Bool.and_eq_true, Bool.not_eq_true', Bool.and_eq_false_iff,
        List.all_eq_true] at hg'
      obtain ⟨⟨⟨hall1, hall2⟩, hnd2⟩, hne⟩ := hg'
      have hd2nd : '.' ∉ (body.dropWhile (· ≠ '.')).tail := by
        simpa using hnd2
      refine ⟨?_, ?_, ?_⟩
      · intro x hx
        conv at hx => rw [hsplit]
        rcases List.mem_append.mp hx with h | h
        · exact Or.inl (hall1 x h)
        · rcases List.mem_cons.mp h with he | ht
          · exact Or.inr he
          · exact Or.inl (hall2 x ht)
      · conv_lhs => rw [hsplit]
        rw [List.count_append, List.count_cons]
        rw [List.count_eq_zero.mpr hd1nd, List.count_eq_zero.mpr hd2nd]
        simp
      · rcases hne with h | h
        · have : (body.takeWhile (· ≠ '.')) ≠ [] := by
            simpa [List.isEmpty_iff] using h
          cases htw : body.takeWhile (· ≠ '.') with
          | nil => exact absurd htw this
          | cons x t =>
            refine ⟨x, ?_, hall1 x (htw ▸ List.mem_cons_self x t)⟩
            rw [hsplit, htw]
            exact List.mem_append.mpr (Or.inl (List.mem_cons_self x t))
        · have : ((body.dropWhile (· ≠ '.')).tail) ≠ [] := by
            simpa [List.isEmpty_iff] using h
          cases hdw : (body.dropWhile (· ≠ '.')).tail with
          | nil => exact absurd hdw this
          | cons x t =>
            refine ⟨x, ?_, hall2 x (hdw ▸ List.mem_cons_self x t)⟩
            rw [hsplit, hdw]
            exact List.mem_append.mpr
              (Or.inr (List.mem_cons_of_mem _ (List.mem_cons_self x t)))
    · rw [if_neg hg]
      simp only [Option.isSome_none, Bool.false_eq_true, false_iff]
      rintro ⟨hall, hcount, hany⟩
      apply hg
      obtain ⟨h1, h2, hnd2, _⟩ := body_dot_parts body hall hcount hdot
      have hboth : ¬((body.takeWhile (· ≠ '.')).isEmpty = true ∧
          ((body.dropWhile (· ≠ '.')).tail).isEmpty = true) := by
        rintro ⟨he1, he2⟩
        obtain ⟨x, hx, hxd⟩ := hany
        rw [hsplit, List.isEmpty_iff.mp he1, List.isEmpty_iff.mp he2] at hx
        have hxe : x = '.' := by simpa using hx
        exact digit_ne_dot hxd hxe
      rw [Bool.and_eq_true, Bool.and_eq_true, Bool.and_eq_true]
      refine ⟨⟨⟨List.all_eq_true.mpr h1, List.all_eq_true.mpr h2⟩, ?_⟩, ?_⟩
      · simpa using hnd2
      · cases h : (body.takeWhile (· ≠ '.')).isEmpty with
        | false => rw [Bool.false_and, Bool.not_false]
        | true =>
          cases h' : ((body.dropWhile (· ≠ '.')).tail).isEmpty with
          | false => decide
          | true => exact absurd ⟨h, h'⟩ hboth
  · have hcont : body.contains '.' = false := by simpa using hdot
    unfold pyFloatCore
    rw [hcont]
    simp only [Bool.false_eq_true, if_false]
    have := pyIntCore_isSome_iff body hdot
    unfold pyIntCore at this
    by_cases hg : (!body.isEmpty && body.all Char.isDigit) = true
    · rw [if_pos hg]
      rw [if_pos hg] at this
      simpa using this
    · rw [if_neg hg]
      rw [if_neg hg] at this
      simpa using this

lemma isSome_omap {α β : Type} (f : α → β) (o : Option α) :
    (o.map f).isSome = o.isSome := by
  cases o <;> rfl

lemma pyParseNum_isSome_iff : ∀ (vc : List Char),
    (pyParseNum vc).isSome = true ↔ specNumPat vc = true := by
  intro vc
  cases vc with
  | nil => decide
  | cons c rest =>
    by_cases hp : c = '+'
    · subst hp
      have hpat : specNumPat ('+' :: rest)
          = (rest.all (fun ch => ch.isDigit || ch = '.') &&
             decide (rest.count '.' ≤ 1) && rest.any Char.isDigit) := by
        simp [specNumPat]
      rw [hpat]
      unfold pyParseNum
      have hfl : pyFloat ('+' :: rest) = pyFloatCore rest := rfl
      have hint : pyInt ('+' :: rest) = pyIntCore rest := rfl
      by_cases hdot : '.' ∈ rest
      · have hcont : ('+' :: rest).contains '.' = true := by simp [hdot]
        rw [if_pos hcont, hfl, isSome_omap]
        exact pyFloatCore_isSome_iff rest
      · have hcont : ('+' :: rest).contains '.' = false := by simp [hdot]
        rw [if_neg (by rw [hcont]; decide), hint, isSome_omap]
        exact pyIntCore_isSome_iff rest hdot
    · by_cases hm : c = '-'
      · subst hm
        have hpat : specNumPat ('-' :: rest)
            = (rest.all (fun ch => ch.isDigit || ch = '.') &&
               decide (rest.count '.' ≤ 1) && rest.any Char.isDigit) := by
          simp [specNumPat]
        rw [hpat]
        unfold pyParseNum
        have hfl : pyFloat ('-' :: rest)
            = (pyFloatCore rest).map (fun q => -q) := rfl
        have hint : pyInt ('-' :: rest)
            = (pyIntCore rest).map (fun n => -(n : Int)) := rfl
        by_cases hdot : '.' ∈ rest
        · have hcont : ('-' :: rest).contains '.' = true := by simp [hdot]
          rw [if_pos hcont, hfl, isSome_omap, isSome_omap]
          exact pyFloatCore_isSome_iff rest
        · have hcont : ('-' :: rest).contains '.' = false := by simp [hdot]
          rw [if_neg (by rw [hcont]; decide), hint, isSome_omap, isSome_omap]
          exact pyIntCore_isSome_iff rest hdot
      · have hpat : specNumPat (c :: rest)
            = ((c :: rest).all (fun ch => ch.isDigit || ch = '.') &&
               decide ((c :: rest).count '.' ≤ 1) &&
               (c :: rest).any Char.isDigit) := by
          simp [specNumPat, hp, hm]
        rw [hpat]
        unfold pyParseNum
        have hfl : pyFloat (c :: rest) = pyFloatCore (c :: rest) := by
          show (if c = '+' then pyFloatCore rest
                else if c = '-' then (pyFloatCore rest).map (fun q => -q)
                else pyFloatCore (c :: rest)) = pyFloatCore (c :: rest)
          rw [if_neg hp, if_neg hm]
        have hint : pyInt (c :: rest) = pyIntCore (c :: rest) := by
          show (if c = '+' then pyIntCore rest
                else if c = '-' then (pyIntCore rest).map (fun n => -n)
                else pyIntCore (c :: rest)) = pyIntCore (c :: rest)
          rw [if_neg hp, if_neg hm]
        by_cases hdot : '.' ∈ c :: rest
        · have hcont : (c :: rest).contains '.' = true := by simpa using hdot
          rw [if_pos hcont, hfl, isSome_omap]
          exact pyFloatCore_isSome_iff (c :: rest)
        · have hcont : (c :: rest).contains '.' = false := by simpa using hdot
          rw [if_neg (by rw [hcont]; decide), hint, isSome_omap]
          exact pyIntCore_isSome_iff (c :: rest) hdot

lemma pat_guard (vc : List Char) (h : specNumPat vc = true) :
    vc.isEmpty = false ∧ sloppyNumeric vc = true := by
  cases vc with
  | nil => exact absurd h (by decide)
  | cons c rest =>
    by_cases hp : c = '+'
    · subst hp
      have hpat : specNumPat ('+' :: rest)
          = (rest.all (fun ch => ch.isDigit || ch = '.') &&
             decide (rest.count '.' ≤ 1) && rest.any Char.isDigit) := by
        simp [specNumPat]
      rw [hpat] at h
      obtain ⟨hall, hcount, hany⟩ := (patB_iff rest).mp h
      exact ⟨rfl, sloppy_of_pat _ rest (Or.inr (Or.inl rfl)) hall hcount hany⟩
    · by_cases hm : c = '-'
      · subst hm
        have hpat : specNumPat ('-' :: rest)
            = (rest.all (fun ch => ch.isDigit || ch = '.') &&
               decide (rest.count '.' ≤ 1) && rest.any Char.isDigit) := by
          simp [specNumPat]
        rw [hpat] at h
        obtain ⟨hall, hcount, hany⟩ := (patB_iff rest).mp h
        exact ⟨rfl, sloppy_of_pat _ rest (Or.inr (Or.inr rfl)) hall hcount hany⟩
      · have hpat : specNumPat (c :: rest)
            = ((c :: rest).all (fun ch => ch.isDigit || ch = '.') &&
               decide ((c :: rest).count '.' ≤ 1) &&
               (c :: rest).any Char.isDigit) := by
          simp [specNumPat, hp, hm]
        rw [hpat] at h
        obtain ⟨hall, hcount, hany⟩ := (patB_iff _).mp h
        exact ⟨rfl, sloppy_of_pat _ _ (Or.inl rfl) hall hcount hany⟩

lemma pyParseNum_some_shape (vc : List Char)
    (h : (pyParseNum vc).isSome = true) :
    pyParseNum vc
      = some (if vc.contains '.' then Value.float ((pyFloat vc).getD 0)
              else Value.int ((pyInt vc).getD 0)) := by
  unfold pyParseNum at h ⊢
  by_cases hc : vc.contains '.' = true
  · rw [if_pos hc] at h ⊢
    rw [if_pos hc]
    cases hf : pyFloat vc with
    | none => rw [hf] at h; exact absurd h (by simp)
    | some q => simp
  · rw [if_neg hc] at h ⊢
    rw [if_neg hc]
    cases hi : pyInt vc with
    | none => rw [hi] at h; exact absurd h (by simp)
    | some n => simp

/-- C4 counterexample: the code's `lstrip("'")` strips *every* leading
apostrophe, so `''12` cleans to the integer 12, while the claim's
single-apostrophe strip would leave `'12`, fail the numeric pattern, and
keep the original string. -/
theorem clean_single_apostrophe_counterexample :
    cleanValue (Value.str (String.mk [apos, apos, '1', '2'])) = Value.int 12 ∧
    claimSingleStripClean (String.mk [apos, apos, '1', '2'])
      = Value.str (String.mk [apos, apos, '1', '2']) ∧
    Value.int 12 ≠ Value.str (String.mk [apos, apos, '1', '2']) :=
  ⟨by decide, by decide, by decide⟩

/-- C4 amended: cleaning strips *all* leading apostrophes, removes every
percent sign, comma and space, trims, and parses the result exactly when
it matches the numeric pattern (optional single leading sign, digits, at
most one decimal point, at least one digit) — a string containing `.` to
a float and otherwise to an integer — while every other non-empty string
is kept as the original value and the empty string becomes null; in
particular `'1,234%` cleans to the integer 1234, `12.5%` to the float
12.5, the empty string to null, and `N/A` to the literal string `N/A`. -/
theorem clean_value_spec :
    (∀ s : String,
      cleanValue (Value.str s)
        = (if s = "" then Value.null
           else if specNumPat (normalizeL s.data) = true then
             (if (normalizeL s.data).contains '.' then
                Value.float ((pyFloat (normalizeL s.data)).getD 0)
              else Value.int ((pyInt (normalizeL s.data)).getD 0))
           else Value.str s)) ∧
    cleanValue (Value.str (String.mk (apos :: "1,234%".data)))
      = Value.int 1234 ∧
    cleanValue (Value.str "12.5%") = Value.float (25 / 2) ∧
    cleanValue (Value.str "") = Value.null ∧
    cleanValue (Value.str "N/A") = Value.str "N/A" := by
  have hmain : ∀ s : String,
      cleanValue (Value.str s)
        = (if s = "" then Value.null
           else if specNumPat (normalizeL s.data) = true then
             (if (normalizeL s.data).contains '.' then
                Value.float ((pyFloat (normalizeL s.data)).getD 0)
              else Value.int ((pyInt (normalizeL s.data)).getD 0))
           else Value.str s) := by
    intro s
    by_cases hs : s = ""
    · simp [cleanValue, hs]
    · rw [if_neg hs]
      have hcv : cleanValue (Value.str s)
          = (if s = "" then Value.null
             else if (!(normalizeL s.data).isEmpty
                 && sloppyNumeric (normalizeL s.data)) = true then
               (match pyParseNum (normalizeL s.data) with
                | some x => x
                | none => Value.str s)
             else Value.str s) := rfl
      rw [hcv, if_neg hs]
      by_cases hpat : specNumPat (normalizeL s.data) = true
      · rw [if_pos hpat]
        obtain ⟨hemp, hslop⟩ := pat_guard _ hpat
        have hguard : (!(normalizeL s.data).isEmpty
            && sloppyNumeric (normalizeL s.data)) = true := by
          rw [hemp, hslop]
          rfl
        rw [if_pos hguard]
        have hsome : (pyParseNum (normalizeL s.data)).isSome = true :=
          (pyParseNum_isSome_iff _).mpr hpat
        rw [pyParseNum_some_shape _ hsome]
      · rw [if_neg hpat]
        by_cases hguard : (!(normalizeL s.data).isEmpty
            && sloppyNumeric (normalizeL s.data)) = true
        · rw [if_pos hguard]
          have hns : (pyParseNum (normalizeL s.data)).isSome = false := by
            cases hh : (pyParseNum (normalizeL s.data)).isSome with
            | true => exact absurd ((pyParseNum_isSome_iff _).mp hh) hpat
            | false => rfl
          have hnone : pyParseNum (normalizeL s.data) = none :=
            Option.not_isSome_iff_eq_none.mp (by simp [hns])
          rw [hnone]
        · rw [if_neg hguard]
  refine ⟨hmain, by decide, ?_, rfl, by decide⟩
  rw [hmain "12.5%"]
  rw [if_neg (by decide), if_pos (by decide), if_pos (by decide)]
  have hfl : pyFloat (normalizeL "12.5%".data)
      = some ((digitsVal ['1', '2'] : ℚ)
          + (digitsVal ['5'] : ℚ) / (10 : ℚ) ^ ([('5' : Char)] : List Char).length) := rfl
  rw [hfl]
  have h12 : digitsVal ['1', '2'] = 12 := rfl
  have h5 : digitsVal ['5'] = 5 := rfl
  rw [Option.getD_some, h12, h5]
  norm_num

/-! ## C6: fuzzy matching -/

lemma similarity_nonneg (a b : String) : 0 ≤ similarity a b := by
  show 0 ≤ (if a.data.length + b.data.length = 0 then (1 : ℚ)
    else (2 * (matchTotal a.data b.data : ℚ))
      / ((a.data.length : ℚ) + (b.data.length : ℚ)))
  by_cases h : a.data.length + b.data.length = 0
  · rw [if_pos h]
    norm_num
  · rw [if_neg h]
    apply div_nonneg
    · positivity
    · positivity

lemma fieldScore_nonneg (h : String) (f : SemanticField) :
    0 ≤ fieldScore h f :=
  le_max_of_le_left (similarity_nonneg _ _)

lemma foldr_max_mem_le (l : List ℚ) : ∀ x ∈ l, x ≤ l.foldr max 0 := by
  induction l with
  | nil => intro x hx; exact absurd hx (List.not_mem_nil x)
  | cons y t ih =>
    intro x hx
    rcases List.mem_cons.mp hx with rfl | ht
    · exact le_max_left _ _
    · exact le_trans (ih x ht) (le_max_right _ _)

lemma foldr_max_le (l : List ℚ) (b : ℚ) (hb : 0 ≤ b)
    (h : ∀ x ∈ l, x ≤ b) : l.foldr max 0 ≤ b := by
  induction l with
  | nil => exact hb
  | cons y t ih =>
    exact max_le (h y (List.mem_cons_self y t))
      (ih (fun x hx => h x (List.mem_cons_of_mem y hx)))

lemma bestField_fold_spec (h : String) :
    ∀ (fields : List SemanticField) (acc : Option (String × ℚ)),
    ((fields.foldl (fun best f =>
        let sc := fieldScore h f
        match best with
        | none => if 0 < sc then some (f.name, sc) else none
        | some (_, bs) => if bs < sc then some (f.name, sc) else best) acc
      = acc ∧ ∀ f ∈ fields, fieldScore h f ≤ ((acc.map Prod.snd).getD 0)) ∨
     (∃ k, k < fields.length ∧
        fields.foldl (fun best f =>
          let sc := fieldScore h f
          match best with
          | none => if 0 < sc then some (f.name, sc) else none
          | some (_, bs) => if bs < sc then some (f.name, sc) else best) acc
          = some ((fields.getD k ⟨"", ""⟩).name,
              fieldScore h (fields.getD k ⟨"", ""⟩)) ∧
        ((acc.map Prod.snd).getD 0) < fieldScore h (fields.getD k ⟨"", ""⟩) ∧
        (∀ f ∈ fields,
          fieldScore h f ≤ fieldScore h (fields.getD k ⟨"", ""⟩)) ∧
        (∀ i < k, fieldScore h (fields.getD i ⟨"", ""⟩)
          < fieldScore h (fields.getD k ⟨"", ""⟩)))) := by
  intro fields
  induction fields with
  | nil => intro acc; exact Or.inl ⟨rfl, by simp⟩
  | cons f t ih =>
    intro acc
    rw [List.foldl_cons]
    cases acc with
    | none =>
      by_cases hsc : 0 < fieldScore h f
      · have hred : (match (none : Option (String × ℚ)) with
            | none => if 0 < fieldScore h f then some (f.name, fieldScore h f)
                else none
            | some (_, bs) => if bs < fieldScore h f
                then some (f.name, fieldScore h f) else none)
            = some (f.name, fieldScore h f) := by
          simp [hsc]
        rw [show (match (none : Option (String × ℚ)) with
            | none => if 0 < fieldScore h f then some (f.name, fieldScore h f)
                else none
            | some (_, bs) => if bs < fieldScore h f
                then some (f.name, fieldScore h f) else none)
            = if 0 < fieldScore h f then some (f.name, fieldScore h f)
              else none from rfl, if_pos hsc]
        rcases ih (some (f.name, fieldScore h f)) with ⟨hr, hall⟩ |
          ⟨k, hk, h1, h2, h3, h4⟩
        · refine Or.inr ⟨0, by simp, ?_, ?_, ?_, ?_⟩
          · rw [hr]
            rfl
          · simpa using hsc
          · intro g hg
            rcases List.mem_cons.mp hg with rfl | hgt
            · simp
            · simpa using hall g hgt
          · intro i hi
            omega
        · refine Or.inr ⟨k + 1, by simpa using hk, ?_, ?_, ?_, ?_⟩
          · rw [h1]
            rfl
          · show (0 : ℚ) < fieldScore h (t.getD k ⟨"", ""⟩)
            have : fieldScore h f < fieldScore h (t.getD k ⟨"", ""⟩) := by
              simpa using h2
            linarith
          · intro g hg
            simp only [List.getD_cons_succ]
            rcases List.mem_cons.mp hg with rfl | hgt
            · have : fieldScore h g < fieldScore h (t.getD k ⟨"", ""⟩) := by
                simpa using h2
              linarith
            · exact h3 g hgt
          · intro i hi
            cases i with
            | zero =>
              simp only [List.getD_cons_zero, List.getD_cons_succ]
              simpa using h2
            | succ i' =>
              simp only [List.getD_cons_succ]
              exact h4 i' (by omega)
      · rw [show (match (none : Option (String × ℚ)) with
            | none => if 0 < fieldScore h f then some (f.name, fieldScore h f)
                else none
            | some (_, bs) => if bs < fieldScore h f
                then some (f.name, fieldScore h f) else none)
            = if 0 < fieldScore h f then some (f.name, fieldScore h f)
              else none from rfl, if_neg hsc]
        rcases ih none with ⟨hr, hall⟩ | ⟨k, hk, h1, h2, h3, h4⟩
        · refine Or.inl ⟨hr, ?_⟩
          intro g hg
          rcases List.mem_cons.mp hg with rfl | hgt
          · simpa using le_of_not_lt hsc
          · exact hall g hgt
        · refine Or.inr ⟨k + 1, by simpa using hk, ?_, ?_, ?_, ?_⟩
          · rw [h1]
            rfl
          · simp only [List.getD_cons_succ]
            simpa using h2
          · intro g hg
            simp only [List.getD_cons_succ]
            rcases List.mem_cons.mp hg with rfl | hgt
            · have h2' : (0 : ℚ) < fieldScore h (t.getD k ⟨"", ""⟩) := by
                simpa using h2
              have := le_of_not_lt hsc
              linarith
            · exact h3 g hgt
          · intro i hi
            cases i with
            | zero =>
              simp only [List.getD_cons_zero, List.getD_cons_succ]
              have h2' : (0 : ℚ) < fieldScore h (t.getD k ⟨"", ""⟩) := by
                simpa using h2
              have := le_of_not_lt hsc
              linarith
            | succ i' =>
              simp only [List.getD_cons_succ]
              exact h4 i' (by omega)
    | some p =>
      obtain ⟨nm0, bs0⟩ := p
      by_cases hsc : bs0 < fieldScore h f
      · rw [show (match (some (nm0, bs0) : Option (String × ℚ)) with
            | none => if 0 < fieldScore h f then some (f.name, fieldScore h f)
                else none
            | some (_, bs) => if bs < fieldScore h f
                then some (f.name, fieldScore h f) else some (nm0, bs0))
            = if bs0 < fieldScore h f then some (f.name, fieldScore h f)
              else some (nm0, bs0) from rfl, if_pos hsc]
        rcases ih (some (f.name, fieldScore h f)) with ⟨hr, hall⟩ |
          ⟨k, hk, h1, h2, h3, h4⟩
        · refine Or.inr ⟨0, by simp, ?_, ?_, ?_, ?_⟩
          · rw [hr]
            rfl
          · simpa using hsc
          · intro g hg
            rcases List.mem_cons.mp hg with rfl | hgt
            · simp
            · simpa using hall g hgt
          · intro i hi
            omega
        · refine Or.inr ⟨k + 1, by simpa using hk, ?_, ?_, ?_, ?_⟩
          · rw [h1]
            rfl
          · simp only [List.getD_cons_succ]
            have : fieldScore h f < fieldScore h (t.getD k ⟨"", ""⟩) := by
              simpa using h2
            simp only [Option.map_some', Option.getD_some]
            linarith
          · intro g hg
            simp only [List.getD_cons_succ]
            rcases List.mem_cons.mp hg with rfl | hgt
            · have : fieldScore h g < fieldScore h (t.getD k ⟨"", ""⟩) := by
                simpa using h2
              linarith
            · exact h3 g hgt
          · intro i hi
            cases i with
            | zero =>
              simp only [List.getD_cons_zero, List.getD_cons_succ]
              simpa using h2
            | succ i' =>
              simp only [List.getD_cons_succ]
              exact h4 i' (by omega)
      · rw [show (match (some (nm0, bs0) : Option (String × ℚ)) with
            | none => if 0 < fieldScore h f then some (f.name, fieldScore h f)
                else none
            | some (_, bs) => if bs < fieldScore h f
                then some (f.name, fieldScore h f) else some (nm0, bs0))
            = if bs0 < fieldScore h f then some (f.name, fieldScore h f)
              else some (nm0, bs0) from rfl, if_neg hsc]
        rcases ih (some (nm0, bs0)) with ⟨hr, hall⟩ | ⟨k, hk, h1, h2, h3, h4⟩
        · refine Or.inl ⟨hr, ?_⟩
          intro g hg
          rcases List.mem_cons.mp hg with rfl | hgt
          · simpa using le_of_not_lt hsc
          · exact hall g hgt
        · refine Or.inr ⟨k + 1, by simpa using hk, ?_, ?_, ?_, ?_⟩
          · rw [h1]
            rfl
          · simp only [List.getD_cons_succ]
            simpa using h2
          · intro g hg
            simp only [List.getD_cons_succ]
            rcases List.mem_cons.mp hg with rfl | hgt
            · have h2' : bs0 < fieldScore h (t.getD k ⟨"", ""⟩) := by
                simpa using h2
              have := le_of_not_lt hsc
              linarith
            · exact h3 g hgt
          · intro i hi
            cases i with
            | zero =>
              simp only [List.getD_cons_zero, List.getD_cons_succ]
              have h2' : bs0 < fieldScore h (t.getD k ⟨"", ""⟩) := by
                simpa using h2
              have := le_of_not_lt hsc
              linarith
            | succ i' =>
              simp only [List.getD_cons_succ]
              exact h4 i' (by omega)

lemma find?_first_getD {α : Type} (p : α → Bool) (d : α) :
    ∀ (l : List α) (k : Nat), k < l.length → p (l.getD k d) = true →
    (∀ i < k, p (l.getD i d) = false) → l.find? p = some (l.getD k d) := by
  intro l
  induction l with
  | nil => intro k hk; simp at hk
  | cons x t ih =>
    intro k hk hp hprev
    cases k with
    | zero =>
      rw [List.find?_cons_of_pos _ (by simpa using hp)]
      rfl
    | succ k' =>
      have hx : p x = false := by simpa using hprev 0 (by omega)
      rw [List.find?_cons_of_neg _ (by simp [hx])]
      exact ih k' (by simpa using hk) (by simpa using hp)
        (fun i hi => by simpa using hprev (i + 1) (by omega))

lemma colResult_eq (h : String) (fields : List SemanticField)
    (hne : trimS h ≠ "") (hnames : ∀ f ∈ fields, f.name ≠ "") :
    colResult h fields
      = (if 1/2 < maxScore h fields then some (firstMatchName h fields)
         else none) := by
  unfold colResult
  rw [if_neg (by simpa using hne)]
  rcases bestField_fold_spec h fields none with ⟨hr, hall⟩ |
    ⟨k, hk, h1, h2, h3, h4⟩
  · have hnone : bestField h fields = none := hr
    rw [hnone]
    have hms : maxScore h fields ≤ 0 := by
      apply foldr_max_le _ _ le_rfl
      intro x hx
      obtain ⟨f, hf, rfl⟩ := List.mem_map.mp hx
      simpa using hall f hf
    rw [if_neg (by intro hc; linarith)]
  · have hsome : bestField h fields
        = some ((fields.getD k ⟨"", ""⟩).name,
            fieldScore h (fields.getD k ⟨"", ""⟩)) := h1
    rw [hsome]
    have hfkmem : fields.getD k ⟨"", ""⟩ ∈ fields := by
      rw [List.getD_eq_getElem _ _ hk]
      exact List.getElem_mem hk
    have hnm : (fields.getD k ⟨"", ""⟩).name ≠ "" := hnames _ hfkmem
    have hmax : maxScore h fields = fieldScore h (fields.getD k ⟨"", ""⟩) := by
      apply le_antisymm
      · apply foldr_max_le _ _ (fieldScore_nonneg h _)
        intro x hx
        obtain ⟨f, hf, rfl⟩ := List.mem_map.mp hx
        exact h3 f hf
      · exact foldr_max_mem_le _ _ (List.mem_map.mpr ⟨_, hfkmem, rfl⟩)
    have hfind : fields.find?
        (fun f => fieldScore h f = maxScore h fields)
        = some (fields.getD k ⟨"", ""⟩) := by
      apply find?_first_getD _ _ _ k hk
      · simp [hmax]
      · intro i hi
        have := h4 i hi
        simp only [decide_eq_false_iff_not]
        rw [hmax]
        exact ne_of_lt this
    have hfmn : firstMatchName h fields = (fields.getD k ⟨"", ""⟩).name := by
      unfold firstMatchName
      rw [hfind]
      rfl
    show (if (fields.getD k ⟨"", ""⟩).name ≠ "" ∧
          1/2 < fieldScore h (fields.getD k ⟨"", ""⟩) then
          some (fields.getD k ⟨"", ""⟩).name else none)
        = (if 1/2 < maxScore h fields then some (firstMatchName h fields)
           else none)
    by_cases hhalf : 1/2 < fieldScore h (fields.getD k ⟨"", ""⟩)
    · rw [if_pos ⟨hnm, hhalf⟩, if_pos (by rw [hmax]; exact hhalf), hfmn]
    · rw [if_neg (fun hc => hhalf hc.2),
        if_neg (by rw [hmax]; exact hhalf)]

lemma fuzzyMap_fold_eq (fields : List SemanticField) :
    ∀ (headers : List String) (n : Nat) (acc : List (Nat × String)),
    (headers.enumFrom n).foldl (fun m p =>
        if trimS p.2 == "" then m
        else match bestField p.2 fields with
          | some (nm, sc) =>
              if nm ≠ "" ∧ 1/2 < sc then m ++ [(p.1, nm)] else m
          | none => m) acc
      = acc ++ (headers.enumFrom n).filterMap
          (fun p => (colResult p.2 fields).map (fun nm => (p.1, nm))) := by
  intro headers
  induction headers with
  | nil => intro n acc; simp [List.enumFrom]
  | cons h t ih =>
    intro n acc
    have hstep : (h :: t).enumFrom n = (n, h) :: t.enumFrom (n + 1) := rfl
    rw [hstep, List.foldl_cons, List.filterMap_cons]
    by_cases he : trimS h == ""
    · have hcr : colResult h fields = none := by
        unfold colResult
        rw [if_pos he]
      rw [if_pos he]
      simp only [hcr, Option.map_none']
      exact ih (n + 1) acc
    · rw [if_neg he]
      cases hbf : bestField h fields with
      | none =>
        have hcr : colResult h fields = none := by
          unfold colResult
          rw [if_neg he, hbf]
        simp only [hcr, Option.map_none']
        exact ih (n + 1) acc
      | some q =>
        obtain ⟨nm, sc⟩ := q
        by_cases hacc : nm ≠ "" ∧ 1/2 < sc
        · have hcr : colResult h fields = some nm := by
            unfold colResult
            rw [if_neg he, hbf]
            exact if_pos hacc
          simp only [hbf]
          rw [if_pos hacc]
          simp only [hcr, Option.map_some']
          rw [ih (n + 1) (acc ++ [(n, nm)])]
          simp
        · have hcr : colResult h fields = none := by
            unfold colResult
            rw [if_neg he, hbf]
            exact if_neg hacc
          simp only [hbf]
          rw [if_neg hacc]
          simp only [hcr, Option.map_none']
          exact ih (n + 1) acc

lemma filterMap_enumFrom_keys (fields : List SemanticField) :
    ∀ (tl : List String) (m : Nat) (q : Nat × String),
    q ∈ (tl.enumFrom m).filterMap
        (fun p => (colResult p.2 fields).map (fun nm => (p.1, nm))) →
    m ≤ q.1 := by
  intro tl m q hq
  obtain ⟨p, hp, hG⟩ := List.mem_filterMap.mp hq
  cases hcr : colResult p.2 fields with
  | none => rw [hcr] at hG; exact absurd hG (by simp)
  | some nm =>
    rw [hcr] at hG
    have hqp : q = (p.1, nm) := by
      have := Option.some_inj.mp (by simpa using hG)
      exact this.symm
    rw [hqp]
    exact (List.mem_enumFrom hp).1

lemma mapLookup_enumFrom (fields : List SemanticField) :
    ∀ (headers : List String) (n c : Nat) (h : String),
    headers.get? c = some h →
    mapLookup ((headers.enumFrom n).filterMap
        (fun p => (colResult p.2 fields).map (fun nm => (p.1, nm)))) (n + c)
      = colResult h fields := by
  intro headers
  induction headers with
  | nil => intro n c h hc; simp at hc
  | cons hd tl ih =>
    intro n c h hc
    have hstep : (hd :: tl).enumFrom n = (n, hd) :: tl.enumFrom (n + 1) := rfl
    rw [hstep, List.filterMap_cons]
    cases c with
    | zero =>
      have hh : h = hd := by
        rw [List.get?_cons_zero] at hc
        exact (Option.some_inj.mp hc).symm
      subst hh
      cases hcr : colResult h fields with
      | none =>
        simp only [Option.map_none']
        unfold mapLookup
        rw [List.find?_eq_none.mpr]
        · rfl
        · intro q hq
          have := filterMap_enumFrom_keys fields tl (n + 1) q hq
          simp only [beq_iff_eq]
          omega
      | some nm =>
        simp only [Option.map_some']
        unfold mapLookup
        rw [List.find?_cons_of_pos _ (by simp)]
        rfl
    | succ c' =>
      have hc' : tl.get? c' = some h := by simpa using hc
      have hrec := ih (n + 1) c' h hc'
      have harith : n + (c' + 1) = n + 1 + c' := by omega
      cases hcr : colResult hd fields with
      | none =>
        simp only [Option.map_none']
        rw [harith]
        exact hrec
      | some nm =>
        simp only [Option.map_some']
        unfold mapLookup
        rw [List.find?_cons_of_neg _
          (by simp only [beq_iff_eq, decide_eq_true_eq]; omega)]
        rw [harith]
        exact hrec

lemma fuzzyMap_filterMap (headers : List String) (fields : List SemanticField) :
    fuzzyMap headers fields
      = (headers.enumFrom 0).filterMap
          (fun p => (colResult p.2 fields).map (fun nm => (p.1, nm))) := by
  unfold fuzzyMap
  rw [show headers.enum = headers.enumFrom 0 from rfl,
    fuzzyMap_fold_eq fields headers 0 []]
  simp

lemma sim_val (a b : String) (m la lb : Nat)
    (hm : matchTotal a.data b.data = m)
    (ha : a.data.length = la) (hb : b.data.length = lb)
    (hn : la + lb ≠ 0) :
    similarity a b = 2 * (m : ℚ) / ((la : ℚ) + (lb : ℚ)) := by
  show (if a.data.length + b.data.length = 0 then (1 : ℚ)
    else (2 * (matchTotal a.data b.data : ℚ))
      / ((a.data.length : ℚ) + (b.data.length : ℚ)))
    = 2 * (m : ℚ) / ((la : ℚ) + (lb : ℚ))
  rw [ha, hb, hm, if_neg hn]

lemma score_eq (h nm : String) (m la lb : Nat)
    (hm : matchTotal (lowerS h).data (lowerS nm).data = m)
    (ha : (lowerS h).data.length = la) (hb : (lowerS nm).data.length = lb)
    (hn : la + lb ≠ 0) :
    fieldScore h ⟨nm, nm⟩ = 2 * (m : ℚ) / ((la : ℚ) + (lb : ℚ)) := by
  show max (similarity (lowerS h) (lowerS nm))
      (similarity (lowerS h) (lowerS nm)) = _
  rw [max_self]
  exact sim_val _ _ m la lb hm ha hb hn

set_option maxRecDepth 40000 in
lemma scoreBB : fieldScore "Brand" ⟨"brand", "brand"⟩ = 1 := by
  rw [score_eq "Brand" "brand" 5 5 5 rfl rfl rfl (by decide)]
  norm_num

set_option maxRecDepth 40000 in
lemma scoreBT : fieldScore "Brand" ⟨"type", "type"⟩ = 0 := by
  rw [score_eq "Brand" "type" 0 5 4 rfl rfl rfl (by decide)]
  norm_num

set_option maxRecDepth 40000 in
lemma scoreBY : fieldScore "Brand" ⟨"ytd_rank", "ytd_rank"⟩ = 6 / 13 := by
  rw [score_eq "Brand" "ytd_rank" 3 5 8 rfl rfl rfl (by decide)]
  norm_num

set_option maxRecDepth 40000 in
lemma scoreTB : fieldScore "Type" ⟨"brand", "brand"⟩ = 0 := by
  rw [score_eq "Type" "brand" 0 4 5 rfl rfl rfl (by decide)]
  norm_num

set_option maxRecDepth 40000 in
lemma scoreTT : fieldScore "Type" ⟨"type", "type"⟩ = 1 := by
  rw [score_eq "Type" "type" 4 4 4 rfl rfl rfl (by decide)]
  norm_num

set_option maxRecDepth 40000 in
lemma scoreTY : fieldScore "Type" ⟨"ytd_rank", "ytd_rank"⟩ = 1 / 6 := by
  rw [score_eq "Type" "ytd_rank" 1 4 8 rfl rfl rfl (by decide)]
  norm_num

set_option maxRecDepth 40000 in
lemma scoreYB : fieldScore "YTD Rank" ⟨"brand", "brand"⟩ = 6 / 13 := by
  rw [score_eq "YTD Rank" "brand" 3 8 5 rfl rfl rfl (by decide)]
  norm_num

set_option maxRecDepth 40000 in
lemma scoreYT : fieldScore "YTD Rank" ⟨"type", "type"⟩ = 1 / 6 := by
  rw [score_eq "YTD Rank" "type" 1 8 4 rfl rfl rfl (by decide)]
  norm_num

set_option maxRecDepth 40000 in
lemma scoreYY : fieldScore "YTD Rank" ⟨"ytd_rank", "ytd_rank"⟩ = 7 / 8 := by
  rw [score_eq "YTD Rank" "ytd_rank" 7 8 8 rfl rfl rfl (by decide)]
  norm_num

lemma maxB : maxScore "Brand"
    [⟨"brand", "brand"⟩, ⟨"type", "type"⟩, ⟨"ytd_rank", "ytd_rank"⟩] = 1 := by
  unfold maxScore
  simp only [List.map_cons, List.map_nil, List.foldr_cons, List.foldr_nil]
  rw [scoreBB, scoreBT, scoreBY]
  rw [max_eq_left (by norm_num : (0 : ℚ) ≤ 6 / 13),
    max_eq_right (by norm_num : (0 : ℚ) ≤ 6 / 13),
    max_eq_left (by norm_num : (6 : ℚ) / 13 ≤ 1)]

lemma maxT : maxScore "Type"
    [⟨"brand", "brand"⟩, ⟨"type", "type"⟩, ⟨"ytd_rank", "ytd_rank"⟩] = 1 := by
  unfold maxScore
  simp only [List.map_cons, List.map_nil, List.foldr_cons, List.foldr_nil]
  rw [scoreTB, scoreTT, scoreTY]
  rw [max_eq_left (by norm_num : (0 : ℚ) ≤ 1 / 6),
    max_eq_left (by norm_num : (1 : ℚ) / 6 ≤ 1),
    max_eq_right (by norm_num : (0 : ℚ) ≤ 1)]

lemma maxY : maxScore "YTD Rank"
    [⟨"brand", "brand"⟩, ⟨"type", "type"⟩, ⟨"ytd_rank", "ytd_rank"⟩]
    = 7 / 8 := by
  unfold maxScore
  simp only [List.map_cons, List.map_nil, List.foldr_cons, List.foldr_nil]
  rw [scoreYB, scoreYT, scoreYY]
  rw [max_eq_left (by norm_num : (0 : ℚ) ≤ 7 / 8),
    max_eq_right (by norm_num : (1 : ℚ) / 6 ≤ 7 / 8),
    max_eq_right (by norm_num : (6 : ℚ) / 13 ≤ 7 / 8)]

lemma firstB : firstMatchName "Brand"
    [⟨"brand", "brand"⟩, ⟨"type", "type"⟩, ⟨"ytd_rank", "ytd_rank"⟩]
    = "brand" := by
  unfold firstMatchName
  rw [List.find?_cons_of_pos _
    (by simp only [decide_eq_true_eq]; rw [scoreBB, maxB])]
  rfl

lemma firstT : firstMatchName "Type"
    [⟨"brand", "brand"⟩, ⟨"type", "type"⟩, ⟨"ytd_rank", "ytd_rank"⟩]
    = "type" := by
  unfold firstMatchName
  rw [List.find?_cons_of_neg _
    (by simp only [decide_eq_true_eq]; rw [scoreTB, maxT]; norm_num)]
  rw [List.find?_cons_of_pos _
    (by simp only [decide_eq_true_eq]; rw [scoreTT, maxT])]
  rfl

lemma firstY : firstMatchName "YTD Rank"
    [⟨"brand", "brand"⟩, ⟨"type", "type"⟩, ⟨"ytd_rank", "ytd_rank"⟩]
    = "ytd_rank" := by
  unfold firstMatchName
  rw [List.find?_cons_of_neg _
    (by simp only [decide_eq_true_eq]; rw [scoreYB, maxY]; norm_num)]
  rw [List.find?_cons_of_neg _
    (by simp only [decide_eq_true_eq]; rw [scoreYT, maxY]; norm_num)]
  rw [List.find?_cons_of_pos _
    (by simp only [decide_eq_true_eq]; rw [scoreYY, maxY])]
  rfl

lemma colB : colResult "Brand"
    [⟨"brand", "brand"⟩, ⟨"type", "type"⟩, ⟨"ytd_rank", "ytd_rank"⟩]
    = some "brand" := by
  rw [colResult_eq "Brand"
    [⟨"brand", "brand"⟩, ⟨"type", "type"⟩, ⟨"ytd_rank", "ytd_rank"⟩]
    (by decide) (by decide)]
  rw [maxB, firstB, if_pos (by norm_num : (1 : ℚ) / 2 < 1)]

lemma colT : colResult "Type"
    [⟨"brand", "brand"⟩, ⟨"type", "type"⟩, ⟨"ytd_rank", "ytd_rank"⟩]
    = some "type" := by
  rw [colResult_eq "Type"
    [⟨"brand", "brand"⟩, ⟨"type", "type"⟩, ⟨"ytd_rank", "ytd_rank"⟩]
    (by decide) (by decide)]
  rw [maxT, firstT, if_pos (by norm_num : (1 : ℚ) / 2 < 1)]

lemma colY : colResult "YTD Rank"
    [⟨"brand", "brand"⟩, ⟨"type", "type"⟩, ⟨"ytd_rank", "ytd_rank"⟩]
    = some "ytd_rank" := by
  rw [colResult_eq "YTD Rank"
    [⟨"brand", "brand"⟩, ⟨"type", "type"⟩, ⟨"ytd_rank", "ytd_rank"⟩]
    (by decide) (by decide)]
  rw [maxY, firstY, if_pos (by norm_num : (1 : ℚ) / 2 < 7 / 8)]

/-- **C6**: under fuzzy matching, every column whose header is non-blank is
looked at against every semantic field: the score of a field is the larger
of the case-insensitive similarity ratios against its `name` and its
`display_name`, the loop settles on the first field attaining the overall
maximum score, and the column maps to that field exactly when the best
score strictly exceeds `0.5` (otherwise the column stays unmapped).
In particular, headers `["Brand", "Type", "YTD Rank"]` against the fields
`brand`, `type`, `ytd_rank` resolve to `{0: brand, 1: type, 2: ytd_rank}`,
each accepted with a score above `0.5`. -/
theorem fuzzy_matching_argmax :
    (∀ (headers : List String) (fields : List SemanticField) (c : Nat)
        (h : String),
      headers.get? c = some h → trimS h ≠ "" →
      (∀ f ∈ fields, f.name ≠ "") →
      mapLookup (fuzzyMap headers fields) c
        = (if 1 / 2 < maxScore h fields then some (firstMatchName h fields)
           else none))
    ∧ fuzzyMap ["Brand", "Type", "YTD Rank"]
        [⟨"brand", "brand"⟩, ⟨"type", "type"⟩, ⟨"ytd_rank", "ytd_rank"⟩]
      = [(0, "brand"), (1, "type"), (2, "ytd_rank")]
    ∧ 1 / 2 < fieldScore "Brand" ⟨"brand", "brand"⟩
    ∧ 1 / 2 < fieldScore "Type" ⟨"type", "type"⟩
    ∧ 1 / 2 < fieldScore "YTD Rank" ⟨"ytd_rank", "ytd_rank"⟩ := by
  refine ⟨?_, ?_, ?_, ?_, ?_⟩
  · intro headers fields c h hget hne hnames
    have hml := mapLookup_enumFrom fields headers 0 c h hget
    rw [Nat.zero_add] at hml
    rw [fuzzyMap_filterMap, hml]
    exact colResult_eq h fields hne hnames
  · rw [fuzzyMap_filterMap]
    rw [show (["Brand", "Type", "YTD Rank"].enumFrom 0)
        = [(0, "Brand"), (1, "Type"), (2, "YTD Rank")] from rfl]
    simp only [List.filterMap_cons, List.filterMap_nil, colB, colT, colY,
      Option.map_some']
  · rw [scoreBB]; norm_num
  · rw [scoreTT]; norm_num
  · rw [scoreYY]; norm_num

/-- Witness for the hypotheses of the general conjunct of `C6`: column `0`
with header `"Brand"` against the single field `brand`. -/
theorem fuzzy_matching_argmax_witness :
    mapLookup (fuzzyMap ["Brand"] [⟨"brand", "brand"⟩]) 0
      = (if 1 / 2 < maxScore "Brand" [⟨"brand", "brand"⟩]
         then some (firstMatchName "Brand" [⟨"brand", "brand"⟩])
         else none) :=
  fuzzy_matching_argmax.1 ["Brand"] [⟨"brand", "brand"⟩] 0 "Brand" rfl
    (by decide) (by decide)

end NabcaPipeline
